import Mathlib

/-!
Verification development for the question-matching engine of
`bot_telegram.py`: text normalization (`clean_text`, `normalize_for_search`),
keyword extraction (`extract_keywords`), similarity scoring
(`calculate_text_similarity`, built on `difflib.SequenceMatcher`), the staged
answer lookup (`find_answer_from_question` and its three search stages), and
the insert path (`simpan_soal`).

Modelling conventions:
* Text is `String` (with the underlying `List Char`); the character model is
  the ASCII fragment of Python's semantics (`str.lower`, `str.isprintable`,
  `\w`, `\s`), under which `unicodedata.normalize('NFKD', ·)` is the identity.
* Python `float` arithmetic is modelled by exact rationals (`ℚ`).
* The BigQuery table is a list of records; SQL `LIKE '%kw%'` is substring
  containment, `ORDER BY ... DESC` is a stable descending sort, `LIMIT n` is
  `take n`.  Each stage's `try/except` is modelled by a fault flag: a faulting
  query yields the caught-exception path of the stage.
* Stage functions also return the list of store queries they issue, so that
  "touches the store" is observable.
-/

/- The arithmetic of `ℚ` is used to model Python floats exactly; the core
rational operations are `@[irreducible]` by default, which blocks kernel
evaluation of concrete similarity scores, so they are made semireducible for
this file. -/
attribute [local semireducible] Rat.add Rat.mul Rat.inv Rat.sub

namespace Bot

/-! ### Character model (ASCII fragment of Python's semantics) -/

/-- Python `\s` on ASCII: space, tab, newline, carriage return, vertical tab,
form feed. -/
def isPySpace (c : Char) : Bool :=
  c.toNat = 32 || c.toNat = 9 || c.toNat = 10 || c.toNat = 13 ||
  c.toNat = 11 || c.toNat = 12

/-- Python `str.isprintable` or space, on the ASCII fragment:
codepoints 0x20–0x7e. -/
def isPyPrintable (c : Char) : Bool :=
  32 ≤ c.toNat && c.toNat ≤ 126

def isAsciiUpper (c : Char) : Bool := 65 ≤ c.toNat && c.toNat ≤ 90

def isAsciiLower (c : Char) : Bool := 97 ≤ c.toNat && c.toNat ≤ 122

def isAsciiDigit (c : Char) : Bool := 48 ≤ c.toNat && c.toNat ≤ 57

/-- Python `\w` on the ASCII fragment: letters, digits, underscore. -/
def isWordChar (c : Char) : Bool :=
  isAsciiUpper c || isAsciiLower c || isAsciiDigit c || c.toNat = 95

/-- Python `str.lower` on the ASCII fragment. -/
def lowerChar (c : Char) : Char :=
  if isAsciiUpper c then Char.ofNat (c.toNat + 32) else c

/-! ### List-of-characters utilities mirroring Python string operations -/

/-- Worker for `collapseWs`: `inRun` records whether the previous character
belonged to a whitespace run (whose single replacement space was already
emitted). -/
def collapseWsAux (inRun : Bool) : List Char → List Char
  | [] => []
  | c :: cs =>
    if isPySpace c then
      if inRun then collapseWsAux true cs else ' ' :: collapseWsAux true cs
    else c :: collapseWsAux false cs

/-- `re.sub(r'\s+', ' ', s)`: replace every maximal whitespace run by a
single space. -/
def collapseWs (l : List Char) : List Char := collapseWsAux false l

/-- Left part of `str.strip()`: drop leading whitespace. -/
def lstrip (l : List Char) : List Char := l.dropWhile isPySpace

/-- Right part of `str.strip()`: drop trailing whitespace. -/
def rstrip : List Char → List Char
  | [] => []
  | c :: cs =>
    if rstrip cs = [] && isPySpace c then [] else c :: rstrip cs

/-- Python `str.strip()` (whitespace on both ends). -/
def pyStrip (l : List Char) : List Char := rstrip (lstrip l)

/-- Python `str.split()` (split on whitespace runs, no empty words). -/
def pySplit (s : List Char) : List String :=
  (s.foldr
    (fun c acc =>
      if isPySpace c then [] :: acc
      else
        match acc with
        | [] => [[c]]
        | w :: ws => (c :: w) :: ws)
    []).filterMap (fun w => if w = [] then none else some (String.mk w))

/-- Python `s in t` for strings / SQL `LIKE '%needle%'`: substring
containment. -/
def likeContains (needle : List Char) : List Char → Bool
  | [] => needle.isPrefixOf ([] : List Char)
  | c :: t => needle.isPrefixOf (c :: t) || likeContains needle t

/-- Python `word.strip('.,!?-')`: drop the given characters from both ends. -/
def stripEdgeChars (cs : List Char) (l : List Char) : List Char :=
  ((l.dropWhile (fun c => cs.contains c)).reverse.dropWhile
    (fun c => cs.contains c)).reverse

/-! ### `clean_text` (src/bot_telegram.py:100) -/

/-- Core of `clean_text` on character lists: the falsy/blank check, NFKD
(identity on the ASCII model), the printable-or-space filter, whitespace
collapsing and stripping. -/
def cleanTextL (t : List Char) : List Char :=
  if t = [] ∨ pyStrip t = [] then []
  else pyStrip (collapseWs (t.filter (fun c => isPyPrintable c || isPySpace c)))

def clean_text (s : String) : String := String.mk (cleanTextL s.data)

/-! ### `normalize_for_search` (src/bot_telegram.py:121) -/

/-- `re.sub(rf'\b{key}\b', out, s)` for a literal `key` made of word
characters: scan left to right; at a position whose preceding character is
not a word character (word boundary), if `key` is a prefix of the remaining
text and the character after it is absent or not a word character, emit `out`
and continue after the match, else emit one character.  The key is passed as
head plus tail so that it is structurally nonempty. -/
def replaceWordAux (k0 : Char) (krest out : List Char) :
    Nat → Option Char → List Char → List Char
  | 0, _, s => s
  | _ + 1, _, [] => []
  | fuel + 1, prev, c :: rest =>
    if (k0 :: krest).isPrefixOf (c :: rest)
        && (match prev with | none => true | some p => !isWordChar p)
        && (match rest.drop krest.length with
            | [] => true
            | d :: _ => !isWordChar d) then
      out ++ replaceWordAux k0 krest out fuel (some (krest.getLastD k0))
        (rest.drop krest.length)
    else
      c :: replaceWordAux k0 krest out fuel (some c) rest

/-- Each scan step consumes at least one character, so fuel `s.length`
makes `replaceWordAux` agree with the unbounded scan. -/
def replaceWord (key out s : List Char) : List Char :=
  match key with
  | [] => s
  | k0 :: krest => replaceWordAux k0 krest out s.length none s

/-- The contraction-standardisation table of `normalize_for_search`, in
Python dict insertion order. -/
def replacements : List (List Char × List Char) :=
  [("gimana".data, "bagaimana".data),
   ("kenapa".data, "mengapa".data),
   ("kapankah".data, "kapan".data),
   ("siapakah".data, "siapa".data),
   ("apakah".data, "apa".data)]

def applyReplacements (s : List Char) : List Char :=
  replacements.foldl (fun t kv => replaceWord kv.1 kv.2 t) s

/-- `re.sub(r'[^\w\s]', ' ', s)`: every character that is neither a word
character nor whitespace becomes a single space. -/
def stripPunct (s : List Char) : List Char :=
  s.map (fun c => if isWordChar c || isPySpace c then c else ' ')

/-- Core of `normalize_for_search` on character lists. -/
def normalizeL (t : List Char) : List Char :=
  let t1 := cleanTextL t
  if t1 = [] then []
  else pyStrip (collapseWs (stripPunct (applyReplacements (t1.map lowerChar))))

def normalize_for_search (s : String) : String := String.mk (normalizeL s.data)

/-! ### Word lists (src/bot_telegram.py:44, 50) -/

def STOPWORDS : List String :=
  ["adalah", "itu", "ini", "tersebut", "oleh", "sebuah", "sebagai",
   "agar", "supaya", "bahwa", "akan", "sudah", "telah", "sedang"]

def IMPORTANT_WORDS : List String :=
  ["tidak", "bukan", "kecuali", "selain", "hanya", "cuma", "melainkan",
   "yang", "dan", "di", "ke", "dari", "pada", "dengan", "untuk",
   "dalam", "juga", "atau", "karena", "seperti", "jika", "ya", "no"]

/-! ### `extract_keywords` (src/bot_telegram.py:154) -/

def extract_keywords (text : String) : List String :=
  let normalized := normalize_for_search text
  if normalized = "" then []
  else
    (pySplit normalized.data).filterMap (fun w0 =>
      let w := String.mk (stripEdgeChars ".,!?-".data w0.data)
      if IMPORTANT_WORDS.contains w then some w
      else if 2 ≤ w.length && !STOPWORDS.contains w then some w
      else none)

/-! ### `difflib.SequenceMatcher` (Python standard library)

`calculate_text_similarity` calls `SequenceMatcher(None, a, b).ratio()`.
We embed difflib's algorithm for `isjunk=None` on inputs below the autojunk
threshold (no element of `b` is junk): `find_longest_match` is the
row-by-row longest-common-run dynamic program with first-seen tie-breaking,
`get_matching_blocks` recurses on the regions left and right of the found
block, and `ratio` is `2*M/T` where `M` is the total matched length and `T`
the total length.  Recursion is driven by a fuel that strictly dominates the
region sizes, so the fuelled function agrees with difflib on every input. -/

/-- Indices `j` with `b[j] = c`, in increasing order (difflib's `b2j`). -/
def b2j (b : List Char) (c : Char) : List Nat :=
  (List.range b.length).filter (fun j => b.getD j ' ' = c)

/-- One row of difflib's `find_longest_match` dynamic program: fold over the
match positions `j` of `a[i]` inside `[blo, bhi)`, extending runs recorded in
the previous row `j2len` and updating the best block on strict improvement. -/
def flmRow (i : Nat) (j2len : Nat → Nat) (js : List Nat) :
    (Nat → Nat) × (Nat × Nat × Nat) → (Nat → Nat) × (Nat × Nat × Nat) :=
  fun acc =>
    js.foldl
      (fun acc2 j =>
        let k := if j = 0 then 1 else j2len (j - 1) + 1
        let newf := fun j' => if j' = j then k else acc2.1 j'
        let best := acc2.2
        (newf, if best.2.2 < k then (i + 1 - k, j + 1 - k, k) else best))
      acc

/-- difflib's `find_longest_match` on the regions `a[alo:ahi]`, `b[blo:bhi]`
with no junk: returns `(besti, bestj, bestsize)`. -/
def findLongestMatch (a b : List Char) (alo ahi blo bhi : Nat) :
    Nat × Nat × Nat :=
  ((List.range (ahi - alo)).foldl
    (fun acc d =>
      let i := alo + d
      let js := (b2j b (a.getD i ' ')).filter (fun j => blo ≤ j && j < bhi)
      let row := flmRow i acc.1 js ((fun _ => 0), acc.2)
      (row.1, row.2))
    ((fun _ => 0), (alo, blo, 0))).2

/-- Total size of difflib's matching blocks on the given regions, with fuel
dominating the region sizes. -/
def matchTotal (a b : List Char) : Nat → Nat → Nat → Nat → Nat → Nat
  | 0, _, _, _, _ => 0
  | fuel + 1, alo, ahi, blo, bhi =>
    let r := findLongestMatch a b alo ahi blo bhi
    let i := r.1
    let j := r.2.1
    let k := r.2.2
    if k = 0 then 0
    else
      k + matchTotal a b fuel alo i blo j
        + matchTotal a b fuel (i + k) ahi (j + k) bhi

/-- `SequenceMatcher(None, a, b).ratio()` as an exact rational. -/
def seqRatio (a b : List Char) : ℚ :=
  if a.length + b.length = 0 then 1
  else
    (2 * (matchTotal a b (a.length + b.length + 1) 0 a.length 0 b.length) : ℚ)
      / (a.length + b.length)

/-! ### `calculate_text_similarity` (src/bot_telegram.py:179) -/

/-- Python `min` on two floats, as rationals (kernel-computable). -/
def ratMin (x y : ℚ) : ℚ := if x ≤ y then x else y

/-- `{word.replace(',', '').replace('.', '') for word in IMPORTANT_WORDS}`. -/
def importantCleaned : List String :=
  IMPORTANT_WORDS.map (fun w =>
    String.mk ((w.data.filter (fun c => c ≠ ',')).filter (fun c => c ≠ '.')))

/-- `calculate_text_similarity`, with Python floats as exact rationals. -/
def calculate_text_similarity (text1 text2 : String) : ℚ :=
  if text1 = "" || text2 = "" then 0
  else if text1 = text2 then 1
  else
    let seq_similarity := seqRatio text1.data text2.data
    let words1 := pySplit text1.data
    let words2 := pySplit text2.data
    if words1 = [] || words2 = [] then seq_similarity * (3 / 10)
    else
      let set1 := words1.dedup
      let set2 := words2.dedup
      let inter := set1.filter (fun w => set2.contains w)
      let interCard := inter.length
      let unionCard := set1.length + (set2.filter (fun w => !set1.contains w)).length
      let word_similarity : ℚ :=
        if 0 < unionCard then (interCard : ℚ) / unionCard else 0
      let len_ratio : ℚ :=
        ((min words1.length words2.length : ℕ) : ℚ)
          / ((max words1.length words2.length : ℕ) : ℚ)
      let important_matches := inter.filter (fun w => importantCleaned.contains w)
      let important_bonus : ℚ := important_matches.length * (3 / 20)
      let final_score :=
        seq_similarity * (1 / 5) + word_similarity * (3 / 5)
          + len_ratio * (1 / 5) + important_bonus
      ratMin final_score 1

/-- The main-branch score of `calculate_text_similarity` (both inputs
nonempty, distinct, both with words): used to state symmetry lemmas. -/
def simMain (text1 text2 : String) : ℚ :=
  let seq_similarity := seqRatio text1.data text2.data
  let words1 := pySplit text1.data
  let words2 := pySplit text2.data
  let set1 := words1.dedup
  let set2 := words2.dedup
  let inter := set1.filter (fun w => set2.contains w)
  let interCard := inter.length
  let unionCard := set1.length + (set2.filter (fun w => !set1.contains w)).length
  let word_similarity : ℚ :=
    if 0 < unionCard then (interCard : ℚ) / unionCard else 0
  let len_ratio : ℚ :=
    ((min words1.length words2.length : ℕ) : ℚ)
      / ((max words1.length words2.length : ℕ) : ℚ)
  let important_matches := inter.filter (fun w => importantCleaned.contains w)
  let important_bonus : ℚ := important_matches.length * (3 / 20)
  let final_score :=
    seq_similarity * (1 / 5) + word_similarity * (3 / 5)
      + len_ratio * (1 / 5) + important_bonus
  ratMin final_score 1

/-! ### `detect_question_type` (src/bot_telegram.py:221) -/

def QUESTION_PATTERNS : List (String × List String) :=
  [("siapa", ["siapa", "siapakah"]),
   ("apa", ["apa", "apakah"]),
   ("kapan", ["kapan", "kapankah"]),
   ("dimana", ["dimana", "di mana", "kemana", "ke mana"]),
   ("mengapa", ["mengapa", "kenapa", "kenapa", "why"]),
   ("bagaimana", ["bagaimana", "gimana", "how"]),
   ("berapa", ["berapa", "berapa banyak", "berapa jumlah"]),
   ("manakah", ["yang mana", "manakah", "mana"]),
   ("kecuali", ["kecuali", "bukan", "tidak termasuk", "selain", "except"])]

def detect_question_type (question : String) : List String :=
  let normalized := normalize_for_search question
  QUESTION_PATTERNS.filterMap (fun p =>
    if p.2.any (fun pat => likeContains pat.data normalized.data) then some p.1
    else none)

/-! ### The record store model

The BigQuery table `{id, question, question_normalized, answer, source,
timestamp}` is modelled by the projection onto the two columns the matching
engine reads. -/

structure QARecord where
  question_normalized : String
  answer : String
deriving DecidableEq

/-- The queries a stage can issue against the store (with their parameters),
used to observe whether the store was touched. -/
inductive StoreQuery
  | exactQ (qn : String)
  | simQ (kws : List String)
  | kwQ (kws : List String)
deriving DecidableEq

/-- Fault injection for the `try/except` block of each query stage of
`find_answer_from_question`: a `true` flag makes that stage's store query
raise, which the stage catches, contributing nothing. -/
structure StoreFaults where
  exactFault : Bool
  fuzzyHighFault : Bool
  kwFault : Bool
  fuzzyLowFault : Bool
deriving DecidableEq

def noFaults : StoreFaults := ⟨false, false, false, false⟩

/-- Python truthiness of the `Optional[str]` returned by a stage: `None` and
the empty string are falsy. -/
def truthy : Option String → Bool
  | none => false
  | some s => !(s = "")

/-! ### `search_exact_match` (src/bot_telegram.py:373) -/

def search_exact_match (question_normalized : String) (store : List QARecord)
    (fault : Bool) : Option String × List StoreQuery :=
  if fault then (none, [.exactQ question_normalized])
  else
    let results :=
      (store.filter (fun r => r.question_normalized = question_normalized)).take 1
    (results.head?.map (fun r => r.answer), [.exactQ question_normalized])

/-! ### `search_with_similarity` (src/bot_telegram.py:397) -/

def search_with_similarity (question_normalized : String) (threshold : ℚ)
    (store : List QARecord) (fault : Bool) : Option String × List StoreQuery :=
  let keywords := extract_keywords question_normalized
  if keywords = [] then (none, [])
  else
    let main_keywords0 := keywords.filter (fun kw => 3 ≤ kw.length)
    let main_keywords := if main_keywords0 = [] then keywords.take 2 else main_keywords0
    let conds := main_keywords.take 3
    if fault then (none, [.simQ conds])
    else
      let results :=
        (store.filter (fun r =>
          conds.any (fun kw => likeContains kw.data r.question_normalized.data))).take 200
      if results = [] then (none, [.simQ conds])
      else
        let best := results.foldl
          (fun (acc : Option String × ℚ) row =>
            let score := calculate_text_similarity question_normalized row.question_normalized
            if acc.2 < score && threshold ≤ score then (some row.answer, score) else acc)
          (none, 0)
        (best.1, [.simQ conds])

/-! ### `search_with_keywords` (src/bot_telegram.py:450) -/

/-- Number of the searched keywords contained in a record's normalized
question (the SQL `keyword_matches` column). -/
def keywordMatches (search_keywords : List String) (r : QARecord) : Nat :=
  (search_keywords.filter (fun kw => likeContains kw.data r.question_normalized.data)).length

/-- Stable insertion for a descending sort by key (`ORDER BY ... DESC` with
deterministic tie-breaking by store order). -/
def insertDescBy (key : QARecord → Nat) (r : QARecord) :
    List QARecord → List QARecord
  | [] => [r]
  | x :: xs => if key x ≤ key r then r :: x :: xs else x :: insertDescBy key r xs

def sortDescBy (key : QARecord → Nat) (l : List QARecord) : List QARecord :=
  l.foldr (insertDescBy key) []

/-- `search_with_keywords`; the `question_types` argument is accepted and
ignored, as in the source. -/
def search_with_keywords (question_normalized : String)
    (_question_types : List String) (store : List QARecord) (fault : Bool) :
    Option String × List StoreQuery :=
  let keywords := extract_keywords question_normalized
  if keywords = [] then (none, [])
  else
    let important0 := keywords.filter (fun kw => 3 ≤ kw.length)
    let important :=
      if important0.length < keywords.length then
        important0 ++ keywords.filter (fun kw => kw.length = 2)
      else important0
    let search_keywords := important.take 5
    if fault then (none, [.kwQ search_keywords])
    else
      let filtered := store.filter (fun r =>
        search_keywords.any (fun kw => likeContains kw.data r.question_normalized.data))
      let results := (sortDescBy (keywordMatches search_keywords) filtered).take 20
      if results = [] then (none, [.kwQ search_keywords])
      else
        let best := (results.take 10).foldl
          (fun (acc : Option String × ℚ) row =>
            let score := calculate_text_similarity question_normalized row.question_normalized
            let final_score := score + (keywordMatches search_keywords row : ℚ) * (1 / 10)
            if acc.2 < final_score then (some row.answer, final_score) else acc)
          (none, 0)
        match best.1 with
        | some a =>
          if !(a = "") && (2 : ℚ) / 5 ≤ best.2 then (some a, [.kwQ search_keywords])
          else (none, [.kwQ search_keywords])
        | none => (none, [.kwQ search_keywords])

/-! ### `find_answer_from_question` (src/bot_telegram.py:324) -/

def msgUnavailable : String := "Database tidak tersedia. Silakan coba lagi nanti."

def msgTooShort : String :=
  "Pertanyaan terlalu pendek. Silakan berikan pertanyaan yang lebih lengkap."

def msgNotFound : String :=
  "Jawaban tidak ditemukan. Coba reformulasi pertanyaan Anda atau periksa ejaan."

/-- `find_answer_from_question`.  `bqAvailable` models `bq_client is None`;
the result is paired with the list of store queries issued. -/
def find_answer_from_question (question : String) (store : List QARecord)
    (faults : StoreFaults) (bqAvailable : Bool) : String × List StoreQuery :=
  if !bqAvailable then (msgUnavailable, [])
  else
    let question := clean_text question
    if question.length < 2 then (msgTooShort, [])
    else
      let question_normalized := normalize_for_search question
      let question_types := detect_question_type question
      let exact := search_exact_match question_normalized store faults.exactFault
      if truthy exact.1 then ((exact.1).getD "", exact.2)
      else
        let fuzzy := search_with_similarity question_normalized (7 / 10) store
          faults.fuzzyHighFault
        if truthy fuzzy.1 then ((fuzzy.1).getD "", exact.2 ++ fuzzy.2)
        else
          let kw := search_with_keywords question_normalized question_types store
            faults.kwFault
          if truthy kw.1 then ((kw.1).getD "", exact.2 ++ fuzzy.2 ++ kw.2)
          else
            let fuzzyLow := search_with_similarity question_normalized (1 / 2) store
              faults.fuzzyLowFault
            if truthy fuzzyLow.1 then
              ((fuzzyLow.1).getD "", exact.2 ++ fuzzy.2 ++ kw.2 ++ fuzzyLow.2)
            else (msgNotFound, exact.2 ++ fuzzy.2 ++ kw.2 ++ fuzzyLow.2)

/-! ### `simpan_soal` (src/bot_telegram.py:266) -/

/-- `simpan_soal`: validate, normalize, duplicate-check, insert.
`dupCheckFault` and `insertFault` model exceptions raised by the
duplicate-check query and the row insert; both are caught by the function's
`try/except`, which returns `False`.  Returns the success flag and the
resulting store. -/
def simpan_soal (question answer : String) (store : List QARecord)
    (dupCheckFault insertFault : Bool) : Bool × List QARecord :=
  let question := clean_text question
  let answer := clean_text answer
  if question = "" || answer = "" || question.length < 3 then (false, store)
  else
    let question_normalized := normalize_for_search question
    if question_normalized = "" then (false, store)
    else if dupCheckFault then (false, store)
    else
      let count :=
        ((store.filter (fun r => r.question_normalized = question_normalized)).take 1).length
      if 0 < count then (false, store)
      else if insertFault then (false, store)
      else (true, store ++ [⟨question_normalized, answer⟩])

/-! ### Spec-modelled alternate-normalization stage -/

/-- Modelled from the spec: the "alternate-normalization match" stage of the
Staged Matcher (spec section 4.4 step 4), which is absent from
`find_answer_from_question` in the source.  Per the spec's words it strips
"all remaining whitespace/underscores from both the query and stored
normalized forms" and compares again. -/
def stripSpacing (s : String) : String :=
  String.mk (s.data.filter (fun c => !(isPySpace c || c = '_')))

/-- Modelled from the spec: look up a record whose normalized question agrees
with the query after `stripSpacing` on both sides. -/
def search_alt_normalization (question_normalized : String)
    (store : List QARecord) : Option String :=
  (store.filter (fun r =>
    stripSpacing r.question_normalized = stripSpacing question_normalized)).head?.map
    (fun r => r.answer)

/-! ### Word runs and whitespace discipline (for the idempotence analysis of
`normalize_for_search`) -/

/-- The maximal word-character runs of a text, in order: the whole-word
occurrences of a word-character literal under `\b` boundaries are exactly
the runs equal to it. -/
def wordRunsStep (c : Char) (rest : List Char) (rs : List (List Char)) :
    List (List Char) :=
  match rest, rs with
  | [], _ => [[c]]
  | _ :: _, [] => [[c]]
  | d :: _, r :: rs' => if isWordChar d then (c :: r) :: rs' else [c] :: r :: rs'

def wordRuns : List Char → List (List Char)
  | [] => []
  | c :: rest =>
    if isWordChar c then wordRunsStep c rest (wordRuns rest) else wordRuns rest

/-- Whitespace discipline of collapsed text: every whitespace character is a
plain space and no two whitespace characters are adjacent. -/
def goodRun : List Char → Bool
  | [] => true
  | [c] => !isPySpace c || c = ' '
  | c :: d :: rest =>
    (!isPySpace c || (c = ' ' && !isPySpace d)) && goodRun (d :: rest)

/-- Whether the scan state's previous character is a word character. -/
def prevWord : Option Char → Bool
  | none => false
  | some p => isWordChar p

/-! ## Theorems -/

/-! ### C2: similarity on empty keyword sets -/

/-- C2, counterexample: the claim "`similarity(a, b) = 0.0` whenever
`extract_keywords(normalize(a))` or `extract_keywords(normalize(b))` is
empty" fails at `a = b = "itu"`: `itu` is a stopword, so its keyword set is
empty, yet `calculate_text_similarity` hits the equal-strings fast path and
returns `1.0`. -/
theorem claim_C2_counterexample :
    extract_keywords (normalize_for_search "itu") = [] ∧
      calculate_text_similarity "itu" "itu" ≠ 0 := by
  constructor
  · decide
  · decide

/-- C2, amended: `calculate_text_similarity` returns `0.0` whenever one of
its two arguments is the empty string (the code's guard is on string
emptiness, not on keyword-set emptiness). -/
theorem claim_C2_amended (a b : String) (h : a = "" ∨ b = "") :
    calculate_text_similarity a b = 0 := by
  rcases h with h | h <;> simp [calculate_text_similarity, h]

/-- C2, witness for the amended theorem at `a = ""`, `b = "xyz"`. -/
theorem claim_C2_amended_witness :
    calculate_text_similarity "" "xyz" = 0 :=
  claim_C2_amended "" "xyz" (Or.inl rfl)

/-! ### C6: similarity of a string with itself -/

/-- C6, counterexample: the claim "`similarity(s, s) = 1.0` for every string
`s`" fails at `s = ""`: the empty-string guard fires first and
`calculate_text_similarity "" "" = 0.0`. -/
theorem claim_C6_counterexample :
    calculate_text_similarity "" "" ≠ 1 := by
  decide

/-- C6, amended: for every nonempty string `s`,
`calculate_text_similarity s s = 1.0` (the exact-match fast path). -/
theorem claim_C6_amended (s : String) (h : s ≠ "") :
    calculate_text_similarity s s = 1 := by
  simp [calculate_text_similarity, h]

/-- C6, witness for the amended theorem at `s = "hi"`. -/
theorem claim_C6_amended_witness :
    calculate_text_similarity "hi" "hi" = 1 :=
  claim_C6_amended "hi" (by decide)

/-! ### C10: colloquial question-word rewriting in `normalize_for_search` -/

/-- C10: `normalize_for_search` rewrites whole-word occurrences of the five
colloquial Indonesian question words to their canonical forms before
punctuation stripping ('gimana' → 'bagaimana', 'kenapa' → 'mengapa',
'kapankah' → 'kapan', 'siapakah' → 'siapa', 'apakah' → 'apa'); embedded
occurrences are left alone, a punctuation-created word boundary still counts
(rewriting happens before punctuation is stripped), and a stored question
containing 'apakah' and a query containing 'apa' normalize to the same
search key. -/
theorem claim_C10 :
    normalize_for_search "gimana caranya" = "bagaimana caranya" ∧
    normalize_for_search "kenapa itu" = "mengapa itu" ∧
    normalize_for_search "kapankah itu" = "kapan itu" ∧
    normalize_for_search "siapakah dia" = "siapa dia" ∧
    normalize_for_search "apakah benar" = "apa benar" ∧
    normalize_for_search "kapankahnya" = "kapankahnya" ∧
    normalize_for_search ".gimana" = "bagaimana" ∧
    normalize_for_search "Apakah ibukota Jepang?"
      = normalize_for_search "apa ibukota jepang" := by
  refine ⟨by decide, by decide, by decide, by decide, by decide, by decide,
    by decide, by decide⟩

/-! ### C4: the too-short gate -/

/-- C4, counterexample: the claim "every input whose *normalized* form is
shorter than 2 characters yields `TooShort` without touching the store"
fails at `"!?"`: its normalized form is empty, but `clean_text "!?"` has
length 2, so the length gate passes, the store is queried (the issued query
log is nonempty) and the result is the not-found message, not the too-short
one. -/
theorem claim_C4_counterexample :
    (normalize_for_search "!?").length < 2 ∧
      (find_answer_from_question "!?" [] noFaults true).1 ≠ msgTooShort ∧
      (find_answer_from_question "!?" [] noFaults true).2 ≠ [] := by
  refine ⟨by decide, by decide, by decide⟩

/-- C4, amended: for every input whose *cleaned* form (`clean_text`) is
shorter than 2 characters, `find_answer_from_question` (with the store
client available) returns the too-short message and issues no store
query. -/
theorem claim_C4_amended (q : String) (store : List QARecord)
    (faults : StoreFaults) (h : (clean_text q).length < 2) :
    find_answer_from_question q store faults true = (msgTooShort, []) := by
  simp [find_answer_from_question, h]

/-- C4, witness for the amended theorem at `q = "h"` (cleaned length 1). -/
theorem claim_C4_amended_witness :
    find_answer_from_question "h" [] noFaults true = (msgTooShort, []) :=
  claim_C4_amended "h" [] noFaults (by decide)

/-! ### C5: duplicate-safe insert -/

/-- The store invariant: no two records share a normalized question. -/
def DistinctNormalized (store : List QARecord) : Prop :=
  store.Pairwise (fun r1 r2 => r1.question_normalized ≠ r2.question_normalized)

/-- C5: inserting a question whose normalized form already exists in the
store returns failure and leaves the store unchanged, and `simpan_soal`
preserves the invariant that no two records share the same
`question_normalized` (under any fault behaviour of the duplicate-check and
insert queries). -/
theorem claim_C5 (q a : String) (store : List QARecord) (dcF inF : Bool) :
    ((∃ r ∈ store,
        r.question_normalized = normalize_for_search (clean_text q)) →
      simpan_soal q a store dcF inF = (false, store)) ∧
    (DistinctNormalized store →
      DistinctNormalized (simpan_soal q a store dcF inF).2) := by
  have key : ∀ (p : QARecord → Bool) (l : List QARecord),
      0 < ((l.filter p).take 1).length ↔ ∃ r ∈ l, p r = true := by
    intro p l
    rw [List.length_take]
    constructor
    · intro h
      have hpos : 0 < (l.filter p).length := by omega
      rw [List.length_pos] at hpos
      rcases hx : l.filter p with _ | ⟨y, ys⟩
      · exact absurd hx hpos
      · have hy : y ∈ l.filter p := by simp [hx]
        rw [List.mem_filter] at hy
        exact ⟨y, hy.1, hy.2⟩
    · rintro ⟨r, hr, hpr⟩
      have hm : r ∈ l.filter p := List.mem_filter.mpr ⟨hr, hpr⟩
      have hpos : 0 < (l.filter p).length :=
        List.length_pos.mpr (List.ne_nil_of_mem hm)
      omega
  constructor
  · rintro ⟨r, hr, hqn⟩
    have hcount : 0 < ((store.filter (fun s =>
        s.question_normalized = normalize_for_search (clean_text q))).take 1).length := by
      rw [key]
      exact ⟨r, hr, by simp [hqn]⟩
    simp only [simpan_soal, if_pos hcount, ite_self]
  · intro hinv
    by_cases hcount : 0 < ((store.filter (fun s =>
        s.question_normalized = normalize_for_search (clean_text q))).take 1).length
    · simp only [simpan_soal, if_pos hcount, ite_self]
      exact hinv
    · have hno : ∀ r ∈ store,
          ¬(r.question_normalized = normalize_for_search (clean_text q)) := by
        intro r hr heq
        exact hcount ((key _ _).mpr ⟨r, hr, by simp [heq]⟩)
      have hgoal : DistinctNormalized
          (store ++ [⟨normalize_for_search (clean_text q), clean_text a⟩]) := by
        unfold DistinctNormalized at hinv ⊢
        simp only [List.pairwise_append]
        refine ⟨hinv, by simp, ?_⟩
        intro r hr r' hr'
        simp only [List.mem_singleton] at hr'
        subst hr'
        exact hno r hr
      simp only [simpan_soal, if_neg hcount, apply_ite Prod.snd]
      repeat' first
        | exact hinv
        | exact hgoal
        | split

/-- C5, witness: duplicate insert at a concrete store returns `(false, store)`
and preserves the distinct-normalized invariant. -/
theorem claim_C5_witness :
    simpan_soal "Ibukota Jepang!" "Osaka" [⟨"ibukota jepang", "Tokyo"⟩]
      false false = (false, [⟨"ibukota jepang", "Tokyo"⟩]) ∧
    DistinctNormalized
      (simpan_soal "Ibukota Jepang!" "Osaka" [⟨"ibukota jepang", "Tokyo"⟩]
        false false).2 := by
  have h := claim_C5 "Ibukota Jepang!" "Osaka" [⟨"ibukota jepang", "Tokyo"⟩]
    false false
  refine ⟨h.1 ⟨⟨"ibukota jepang", "Tokyo"⟩, by simp, by decide⟩, h.2 ?_⟩
  simp [DistinctNormalized]

/-! ### C7: symmetry of the similarity scorer -/

/-- C7, counterexample: `calculate_text_similarity` is not symmetric,
because `difflib.SequenceMatcher`'s matching-block total is not: at
`("aba", "babba")` the sequence ratio is `3/4` one way and `1/2` the other,
giving scores `7/20` and `3/10`. -/
theorem claim_C7_counterexample :
    calculate_text_similarity "aba" "babba"
      ≠ calculate_text_similarity "babba" "aba" := by
  decide

theorem sim_formula (a b : String) (ha : ¬a = "") (hb : ¬b = "")
    (hab : ¬a = b) (hw1 : ¬pySplit a.data = []) (hw2 : ¬pySplit b.data = []) :
    calculate_text_similarity a b = simMain a b := by
  simp only [calculate_text_similarity]
  rw [if_neg hab]
  rw [if_neg (show ¬((decide (a = "") || decide (b = "")) = true) from by
    simp [ha, hb])]
  rw [if_neg (show ¬((decide (pySplit a.data = []) ||
      decide (pySplit b.data = [])) = true) from by simp [hw1, hw2])]
  rfl

theorem nodupFilterCard (p q : List String) (hp : p.Nodup) :
    (p.filter (fun w => q.contains w)).length = (p.toFinset ∩ q.toFinset).card := by
  have h1 : (p.filter (fun w => q.contains w)).Nodup := List.Nodup.filter _ hp
  have h2 := List.card_toFinset (p.filter (fun w => q.contains w))
  rw [List.Nodup.dedup h1] at h2
  rw [← h2, List.toFinset_filter]
  rw [← Finset.filter_mem_eq_inter]
  congr 1
  apply Finset.filter_congr
  intro x hx
  simp [List.elem_iff]

theorem nodupFilterNotCard (p q : List String) (hp : p.Nodup) :
    (p.filter (fun w => !q.contains w)).length = (p.toFinset \ q.toFinset).card := by
  have h1 : (p.filter (fun w => !q.contains w)).Nodup := List.Nodup.filter _ hp
  have h2 := List.card_toFinset (p.filter (fun w => !q.contains w))
  rw [List.Nodup.dedup h1] at h2
  rw [← h2, List.toFinset_filter, Finset.sdiff_eq_filter]
  congr 1
  apply Finset.filter_congr
  intro x hx
  simp [List.elem_iff]

theorem interLen_comm (p q : List String) (hp : p.Nodup) (hq : q.Nodup) :
    (p.filter (fun w => q.contains w)).length
      = (q.filter (fun w => p.contains w)).length := by
  rw [nodupFilterCard p q hp, nodupFilterCard q p hq, Finset.inter_comm]

theorem nodupLen (p : List String) (hp : p.Nodup) : p.length = p.toFinset.card := by
  rw [List.card_toFinset, List.Nodup.dedup hp]

theorem unionLen_comm (p q : List String) (hp : p.Nodup) (hq : q.Nodup) :
    p.length + (q.filter (fun w => !p.contains w)).length
      = q.length + (p.filter (fun w => !q.contains w)).length := by
  rw [nodupLen p hp, nodupLen q hq, nodupFilterNotCard p q hp,
    nodupFilterNotCard q p hq]
  rw [Nat.add_comm (p.toFinset.card), Nat.add_comm (q.toFinset.card)]
  rw [Finset.card_sdiff_add_card, Finset.card_sdiff_add_card, Finset.union_comm]

theorem importantLen_comm (p q : List String) (hp : p.Nodup) (hq : q.Nodup) :
    ((p.filter (fun w => q.contains w)).filter
        (fun w => importantCleaned.contains w)).length
      = ((q.filter (fun w => p.contains w)).filter
        (fun w => importantCleaned.contains w)).length := by
  have h : forall (p q : List String), p.Nodup ->
      ((p.filter (fun w => q.contains w)).filter
          (fun w => importantCleaned.contains w)).length
        = ((p.toFinset ∩ q.toFinset) ∩ importantCleaned.toFinset).card := by
    intro p q hp
    have h1 : (p.filter (fun w => q.contains w)).Nodup := List.Nodup.filter _ hp
    rw [nodupFilterCard _ importantCleaned h1]
    congr 2
    rw [List.toFinset_filter]
    rw [← Finset.filter_mem_eq_inter]
    apply Finset.filter_congr
    intro x hx
    simp [List.elem_iff]
  rw [h p q hp, h q p hq, Finset.inter_comm p.toFinset]

theorem sim_formula_words (a b : String) (ha : ¬a = "") (hb : ¬b = "")
    (hab : ¬a = b) (hw : pySplit a.data = [] ∨ pySplit b.data = []) :
    calculate_text_similarity a b = seqRatio a.data b.data * (3 / 10) := by
  simp only [calculate_text_similarity]
  rw [if_neg hab]
  rw [if_neg (show ¬((decide (a = "") || decide (b = "")) = true) from by
    simp [ha, hb])]
  rw [if_pos (show ((decide (pySplit a.data = []) ||
      decide (pySplit b.data = [])) = true) from by
    rcases hw with h | h <;> simp [h])]

/-- C7, amended: `calculate_text_similarity` is symmetric whenever the
underlying `SequenceMatcher` ratio is symmetric for the pair (every other
component of the score — word-set overlap, length ratio, important-word
bonus, and the guard branches — is symmetric unconditionally). -/
theorem claim_C7_amended (a b : String)
    (hseq : seqRatio a.data b.data = seqRatio b.data a.data) :
    calculate_text_similarity a b = calculate_text_similarity b a := by
  by_cases ha : a = ""
  · simp [calculate_text_similarity, ha]
  · by_cases hb : b = ""
    · simp [calculate_text_similarity, hb]
    · by_cases hab : a = b
      · rw [hab]
      · have hba : ¬b = a := fun h => hab h.symm
        by_cases hw1 : pySplit a.data = []
        · rw [sim_formula_words a b ha hb hab (Or.inl hw1),
            sim_formula_words b a hb ha hba (Or.inr hw1), hseq]
        · by_cases hw2 : pySplit b.data = []
          · rw [sim_formula_words a b ha hb hab (Or.inr hw2),
              sim_formula_words b a hb ha hba (Or.inl hw2), hseq]
          · rw [sim_formula a b ha hb hab hw1 hw2,
              sim_formula b a hb ha hba hw2 hw1]
            simp only [simMain]
            rw [hseq,
              interLen_comm ((pySplit a.data).dedup) ((pySplit b.data).dedup)
                (List.nodup_dedup _) (List.nodup_dedup _),
              unionLen_comm ((pySplit a.data).dedup) ((pySplit b.data).dedup)
                (List.nodup_dedup _) (List.nodup_dedup _),
              importantLen_comm ((pySplit a.data).dedup) ((pySplit b.data).dedup)
                (List.nodup_dedup _) (List.nodup_dedup _),
              min_comm ((pySplit a.data).length),
              max_comm ((pySplit a.data).length)]

/-- C7, witness for the amended theorem at the pair `("ab", "a b")`, whose
sequence ratio happens to be symmetric. -/
theorem claim_C7_amended_witness :
    seqRatio "ab".data "a b".data = seqRatio "a b".data "ab".data ∧
    calculate_text_similarity "ab" "a b" = calculate_text_similarity "a b" "ab" :=
  ⟨by decide, claim_C7_amended "ab" "a b" (by decide)⟩

/-! ### C1: the staged cascade -/

/-- C1, counterexample: the claimed cascade contains an
alternate-normalization stage, but the code has none.  With the store
`[{question_normalized := "a b", answer := "X"}]` and query `"ab"`, the
spec's alternate-normalization match succeeds (both sides strip to `"ab"`),
yet `find_answer_from_question` exhausts its stages and returns the
not-found message. -/
theorem claim_C1_counterexample :
    (find_answer_from_question "ab" [⟨"a b", "X"⟩] noFaults true).1
      = msgNotFound ∧
    search_alt_normalization (normalize_for_search (clean_text "ab"))
      [⟨"a b", "X"⟩] = some "X" := by
  refine ⟨by decide, by decide⟩

/-- C1, amended: with the store available and the cleaned input long enough,
`find_answer_from_question` runs exactly four stages in order — exact match,
similarity search at threshold 0.7, keyword-ranked search, similarity search
at threshold 0.5 — short-circuiting on the first stage whose result is
truthy, and returns the not-found message only after all four fail; there is
no alternate-normalization stage. -/
theorem claim_C1_amended (q : String) (store : List QARecord)
    (hlen : 2 ≤ (clean_text q).length) :
    (truthy (search_exact_match (normalize_for_search (clean_text q))
        store false).1 = true →
      (find_answer_from_question q store noFaults true).1
        = ((search_exact_match (normalize_for_search (clean_text q))
            store false).1).getD "") ∧
    (truthy (search_exact_match (normalize_for_search (clean_text q))
        store false).1 = false →
      truthy (search_with_similarity (normalize_for_search (clean_text q))
        (7 / 10) store false).1 = true →
      (find_answer_from_question q store noFaults true).1
        = ((search_with_similarity (normalize_for_search (clean_text q))
            (7 / 10) store false).1).getD "") ∧
    (truthy (search_exact_match (normalize_for_search (clean_text q))
        store false).1 = false →
      truthy (search_with_similarity (normalize_for_search (clean_text q))
        (7 / 10) store false).1 = false →
      truthy (search_with_keywords (normalize_for_search (clean_text q))
        (detect_question_type (clean_text q)) store false).1 = true →
      (find_answer_from_question q store noFaults true).1
        = ((search_with_keywords (normalize_for_search (clean_text q))
            (detect_question_type (clean_text q)) store false).1).getD "") ∧
    (truthy (search_exact_match (normalize_for_search (clean_text q))
        store false).1 = false →
      truthy (search_with_similarity (normalize_for_search (clean_text q))
        (7 / 10) store false).1 = false →
      truthy (search_with_keywords (normalize_for_search (clean_text q))
        (detect_question_type (clean_text q)) store false).1 = false →
      truthy (search_with_similarity (normalize_for_search (clean_text q))
        (1 / 2) store false).1 = true →
      (find_answer_from_question q store noFaults true).1
        = ((search_with_similarity (normalize_for_search (clean_text q))
            (1 / 2) store false).1).getD "") ∧
    (truthy (search_exact_match (normalize_for_search (clean_text q))
        store false).1 = false →
      truthy (search_with_similarity (normalize_for_search (clean_text q))
        (7 / 10) store false).1 = false →
      truthy (search_with_keywords (normalize_for_search (clean_text q))
        (detect_question_type (clean_text q)) store false).1 = false →
      truthy (search_with_similarity (normalize_for_search (clean_text q))
        (1 / 2) store false).1 = false →
      (find_answer_from_question q store noFaults true).1 = msgNotFound) := by
  have hlen' : ¬(clean_text q).length < 2 := by omega
  refine ⟨?_, ?_, ?_, ?_, ?_⟩
  · intro h1
    simp [find_answer_from_question, noFaults, hlen', h1]
  · intro h1 h2
    simp [find_answer_from_question, noFaults, hlen', h1, h2]
  · intro h1 h2 h3
    simp [find_answer_from_question, noFaults, hlen', h1, h2, h3]
  · intro h1 h2 h3 h4
    simp [find_answer_from_question, noFaults, hlen', h1, h2, h3, h4, -one_div]
  · intro h1 h2 h3 h4
    simp [find_answer_from_question, noFaults, hlen', h1, h2, h3, h4, -one_div]

/-- C1, witness for the amended theorem: a store whose single record matches
the query exactly, resolved by the first (exact) stage. -/
theorem claim_C1_amended_witness :
    2 ≤ (clean_text "apa ibukota jepang").length ∧
    (find_answer_from_question "apa ibukota jepang"
      [⟨"apa ibukota jepang", "Tokyo"⟩] noFaults true).1 = "Tokyo" := by
  have h := claim_C1_amended "apa ibukota jepang"
    [⟨"apa ibukota jepang", "Tokyo"⟩] (by decide)
  exact ⟨by decide, (h.1 (by decide)).trans (by decide)⟩

/-! ### Stage-result provenance lemmas -/

theorem truthy_iff (o : Option String) :
    truthy o = true ↔ ∃ s, o = some s ∧ s ≠ "" := by
  cases o with
  | none => simp [truthy]
  | some s => simp [truthy]

/-- A best-candidate fold whose step either keeps the accumulator or selects
the current row's answer only ever returns an accumulator value or a row
answer. -/
theorem foldl_pick_mem (l : List QARecord)
    (step : (Option String × ℚ) → QARecord → (Option String × ℚ))
    (hstep : ∀ acc r a, (step acc r).1 = some a → acc.1 = some a ∨ a = r.answer) :
    ∀ acc a, (l.foldl step acc).1 = some a →
      acc.1 = some a ∨ ∃ r ∈ l, a = r.answer := by
  induction l with
  | nil => intro acc a h; exact Or.inl h
  | cons x xs ih =>
    intro acc a h
    rcases ih (step acc x) a h with h1 | ⟨r, hr, ha⟩
    · rcases hstep acc x a h1 with h2 | h2
      · exact Or.inl h2
      · exact Or.inr ⟨x, List.mem_cons_self x xs, h2⟩
    · exact Or.inr ⟨r, List.mem_cons_of_mem x hr, ha⟩

theorem search_with_similarity_mem (qn : String) (th : ℚ)
    (store : List QARecord) (fault : Bool) (a : String)
    (h : (search_with_similarity qn th store fault).1 = some a) :
    ∃ r ∈ store, a = r.answer := by
  unfold search_with_similarity at h
  dsimp only at h
  repeat' split at h
  any_goals simp at h
  all_goals
    rcases foldl_pick_mem _ _
        (fun acc r a ha => by
          revert ha
          split
          · intro ha
            exact Or.inr (Option.some_inj.mp ha).symm
          · intro ha
            exact Or.inl ha)
        (none, 0) a h with h1 | ⟨r, hr, ha⟩
  any_goals simp at h1
  all_goals exact ⟨r, List.mem_of_mem_filter (List.take_subset _ _ hr), ha⟩
theorem mem_insertDescBy (key : QARecord → Nat) (r x : QARecord) :
    ∀ l, x ∈ insertDescBy key r l → x = r ∨ x ∈ l := by
  intro l
  induction l with
  | nil => simp [insertDescBy]
  | cons y ys ih =>
    simp only [insertDescBy]
    split
    · intro h
      rcases List.mem_cons.mp h with h | h
      · exact Or.inl h
      · exact Or.inr h
    · intro h
      rcases List.mem_cons.mp h with h | h
      · exact Or.inr (h ▸ List.mem_cons_self y ys)
      · rcases ih h with h | h
        · exact Or.inl h
        · exact Or.inr (List.mem_cons_of_mem y h)

theorem mem_sortDescBy (key : QARecord → Nat) (x : QARecord) :
    ∀ l, x ∈ sortDescBy key l → x ∈ l := by
  intro l
  induction l with
  | nil => simp [sortDescBy]
  | cons y ys ih =>
    intro h
    rcases mem_insertDescBy key y x _ h with h | h
    · exact h ▸ List.mem_cons_self y ys
    · exact List.mem_cons_of_mem y (ih h)

theorem search_with_keywords_mem (qn : String) (qt : List String)
    (store : List QARecord) (fault : Bool) (a : String)
    (h : (search_with_keywords qn qt store fault).1 = some a) :
    ∃ r ∈ store, a = r.answer := by
  unfold search_with_keywords at h
  dsimp only at h
  repeat' split at h
  any_goals simp at h
  all_goals (
    rename_i x a' heq hcond
    subst h
    rcases foldl_pick_mem _ _
        (fun acc r a ha => by
          revert ha
          split
          · intro ha
            exact Or.inr (Option.some_inj.mp ha).symm
          · intro ha
            exact Or.inl ha)
        (none, 0) a' heq with h1 | ⟨r, hr, ha⟩
    · simp at h1
    · exact ⟨r, List.mem_of_mem_filter (mem_sortDescBy _ _ _
        (List.take_subset _ _ (List.take_subset _ _ hr))), ha⟩)

theorem search_exact_match_mem (qn : String) (store : List QARecord)
    (fault : Bool) (a : String)
    (h : (search_exact_match qn store fault).1 = some a) :
    ∃ r ∈ store, a = r.answer := by
  unfold search_exact_match at h
  split at h
  · exact absurd h (by simp)
  · dsimp only at h
    rw [Option.map_eq_some'] at h
    rcases h with ⟨r, hr, ha⟩
    have hmem : r ∈ (store.filter (fun s => s.question_normalized = qn)).take 1 :=
      List.mem_of_mem_head? hr
    exact ⟨r, List.mem_of_mem_filter (List.take_subset _ _ hmem), ha.symm⟩

/-! ### C3: totality of the staged matcher -/

/-- C3: for every input string, store contents, availability flag and fault
behaviour of the individual query stages, `find_answer_from_question` returns
one of the four defined outcomes: the store-unavailable message, the
too-short message, the not-found message, or a `Found` answer, which is
always the answer of some stored record.  Stage faults are absorbed (the
cascade proceeds); no error escapes. -/
theorem claim_C3 (q : String) (store : List QARecord) (faults : StoreFaults)
    (avail : Bool) :
    (find_answer_from_question q store faults avail).1 = msgUnavailable ∨
    (find_answer_from_question q store faults avail).1 = msgTooShort ∨
    (find_answer_from_question q store faults avail).1 = msgNotFound ∨
    ∃ r ∈ store, (find_answer_from_question q store faults avail).1 = r.answer := by
  cases avail with
  | false =>
    left
    simp [find_answer_from_question]
  | true =>
    by_cases hlen : (clean_text q).length < 2
    · right; left
      simp [find_answer_from_question, hlen]
    · simp only [find_answer_from_question, Bool.not_true, Bool.false_eq_true,
        if_false, if_neg hlen]
      by_cases h1 : truthy (search_exact_match
          (normalize_for_search (clean_text q)) store faults.exactFault).1 = true
      · rcases (truthy_iff _).mp h1 with ⟨s, hs, hne⟩
        right; right; right
        rcases search_exact_match_mem _ _ _ _ hs with ⟨r, hr, ha⟩
        refine ⟨r, hr, ?_⟩
        rw [if_pos h1]
        simp [hs, ha]
      · rw [if_neg h1]
        by_cases h2 : truthy (search_with_similarity
            (normalize_for_search (clean_text q)) (7 / 10) store
            faults.fuzzyHighFault).1 = true
        · rcases (truthy_iff _).mp h2 with ⟨s, hs, hne⟩
          right; right; right
          rcases search_with_similarity_mem _ _ _ _ _ hs with ⟨r, hr, ha⟩
          refine ⟨r, hr, ?_⟩
          rw [if_pos h2]
          simp [hs, ha]
        · rw [if_neg h2]
          by_cases h3 : truthy (search_with_keywords
              (normalize_for_search (clean_text q))
              (detect_question_type (clean_text q)) store faults.kwFault).1 = true
          · rcases (truthy_iff _).mp h3 with ⟨s, hs, hne⟩
            right; right; right
            rcases search_with_keywords_mem _ _ _ _ _ hs with ⟨r, hr, ha⟩
            refine ⟨r, hr, ?_⟩
            rw [if_pos h3]
            simp [hs, ha]
          · rw [if_neg h3]
            by_cases h4 : truthy (search_with_similarity
                (normalize_for_search (clean_text q)) (1 / 2) store
                faults.fuzzyLowFault).1 = true
            · rcases (truthy_iff _).mp h4 with ⟨s, hs, hne⟩
              right; right; right
              rcases search_with_similarity_mem _ _ _ _ _ hs with ⟨r, hr, ha⟩
              refine ⟨r, hr, ?_⟩
              rw [if_pos h4]
              dsimp only
              rw [hs]
              simp [ha]
            · rw [if_neg h4]
              right; right; left
              rfl

/-! ### C9: the normalization character contract -/

theorem toNat_ofNat_valid (n : Nat) (h : n.isValidChar) :
    (Char.ofNat n).toNat = n := by
  simp only [Char.ofNat, dif_pos h]
  simp [Char.ofNatAux, Char.toNat, UInt32.toNat]

theorem lowerChar_not_upper (d : Char) : isAsciiUpper (lowerChar d) = false := by
  unfold lowerChar
  split
  · rename_i h
    unfold isAsciiUpper at h ⊢
    simp only [Bool.and_eq_true, decide_eq_true_eq] at h
    have hv : (d.toNat + 32).isValidChar := by
      left
      omega
    rw [toNat_ofNat_valid _ hv]
    simp only [Bool.and_eq_false_iff, decide_eq_false_iff_not]
    omega
  · rename_i h
    simpa using h

theorem mem_rstrip (c : Char) : ∀ l, c ∈ rstrip l → c ∈ l := by
  intro l
  induction l with
  | nil => simp [rstrip]
  | cons x xs ih =>
    simp only [rstrip]
    split
    · simp
    · intro h
      rcases List.mem_cons.mp h with h | h
      · exact h ▸ List.mem_cons_self x xs
      · exact List.mem_cons_of_mem x (ih h)

theorem mem_pyStrip (c : Char) (l : List Char) (h : c ∈ pyStrip l) : c ∈ l := by
  unfold pyStrip lstrip at h
  exact (List.dropWhile_sublist _).subset (mem_rstrip c _ h)

theorem mem_collapseWsAux (c : Char) :
    ∀ (b : Bool) (l : List Char), c ∈ collapseWsAux b l →
      c = ' ' ∨ (c ∈ l ∧ isPySpace c = false) := by
  intro b l
  induction l generalizing b with
  | nil => simp [collapseWsAux]
  | cons x xs ih =>
    by_cases hsp : isPySpace x = true
    · simp only [collapseWsAux, if_pos hsp]
      split
      · intro h
        rcases ih _ h with h | ⟨h1, h2⟩
        · exact Or.inl h
        · exact Or.inr ⟨List.mem_cons_of_mem x h1, h2⟩
      · intro h
        rcases List.mem_cons.mp h with h | h
        · exact Or.inl h
        · rcases ih _ h with h | ⟨h1, h2⟩
          · exact Or.inl h
          · exact Or.inr ⟨List.mem_cons_of_mem x h1, h2⟩
    · simp only [collapseWsAux, if_neg hsp]
      intro h
      rcases List.mem_cons.mp h with h | h
      · subst h
        exact Or.inr ⟨List.mem_cons_self _ _, by simpa using hsp⟩
      · rcases ih _ h with h | ⟨h1, h2⟩
        · exact Or.inl h
        · exact Or.inr ⟨List.mem_cons_of_mem x h1, h2⟩

theorem mem_stripPunct (c : Char) (l : List Char) (h : c ∈ stripPunct l) :
    c = ' ' ∨ (c ∈ l ∧ (isWordChar c || isPySpace c) = true) := by
  unfold stripPunct at h
  rcases List.mem_map.mp h with ⟨d, hd, hc⟩
  by_cases hw : (isWordChar d || isPySpace d) = true
  · rw [if_pos hw] at hc
    subst hc
    exact Or.inr ⟨hd, hw⟩
  · rw [if_neg hw] at hc
    exact Or.inl hc.symm

theorem mem_replaceWordAux (c : Char) (k0 : Char) (krest out : List Char) :
    ∀ (fuel : Nat) (prev : Option Char) (s : List Char),
      c ∈ replaceWordAux k0 krest out fuel prev s → c ∈ out ∨ c ∈ s := by
  intro fuel
  induction fuel with
  | zero => intro prev s h; exact Or.inr h
  | succ n ih =>
    intro prev s h
    match s with
    | [] => simp [replaceWordAux] at h
    | x :: xs =>
      simp only [replaceWordAux] at h
      split at h
      · rcases List.mem_append.mp h with h | h
        · exact Or.inl h
        · rcases ih _ _ h with h | h
          · exact Or.inl h
          · exact Or.inr (List.mem_cons_of_mem x ((List.drop_sublist _ _).subset h))
      · rcases List.mem_cons.mp h with h | h
        · exact Or.inr (h ▸ List.mem_cons_self x xs)
        · rcases ih _ _ h with h | h
          · exact Or.inl h
          · exact Or.inr (List.mem_cons_of_mem x h)

theorem mem_applyReplacements (c : Char) (s : List Char)
    (h : c ∈ applyReplacements s) : c ∈ s ∨ isAsciiLower c = true := by
  unfold applyReplacements replacements at h
  simp only [List.foldl_cons, List.foldl_nil] at h
  have step : ∀ (key out t : List Char), (∀ x ∈ out, isAsciiLower x = true) →
      c ∈ replaceWord key out t → c ∈ t ∨ isAsciiLower c = true := by
    intro key out t hout h
    unfold replaceWord at h
    match key with
    | [] => exact Or.inl h
    | k0 :: krest =>
      rcases mem_replaceWordAux c k0 krest out _ _ _ h with h | h
      · exact Or.inr (hout c h)
      · exact Or.inl h
  have l1 : ∀ x ∈ "bagaimana".data, isAsciiLower x = true := by decide
  have l2 : ∀ x ∈ "mengapa".data, isAsciiLower x = true := by decide
  have l3 : ∀ x ∈ "kapan".data, isAsciiLower x = true := by decide
  have l4 : ∀ x ∈ "siapa".data, isAsciiLower x = true := by decide
  have l5 : ∀ x ∈ "apa".data, isAsciiLower x = true := by decide
  rcases step _ _ _ l5 h with h | h
  · rcases step _ _ _ l4 h with h | h
    · rcases step _ _ _ l3 h with h | h
      · rcases step _ _ _ l2 h with h | h
        · rcases step _ _ _ l1 h with h | h
          · exact Or.inl h
          · exact Or.inr h
        · exact Or.inr h
      · exact Or.inr h
    · exact Or.inr h
  · exact Or.inr h

/-- C9, counterexample: the claim "normalize replaces every character that is
not a letter, digit, or whitespace with a single space" fails on underscores:
Python's `\w` keeps them, so `normalize_for_search "a_b" = "a_b"`, not
`"a b"`. -/
theorem claim_C9_counterexample :
    normalize_for_search "a_b" = "a_b" ∧ ("a_b" : String) ≠ "a b" :=
  ⟨by decide, by decide⟩

theorem char_underscore_of_toNat (c : Char) (h : c.toNat = 95) : c = '_' :=
  Char.ext (UInt32.ext (by simpa [Char.toNat] using h))

theorem normalize_chars_aux (s : String) :
    ∀ c ∈ (normalize_for_search s).data,
      (isAsciiLower c || isAsciiDigit c || c = '_' || c = ' ') = true := by
  intro c hc
  have hc' : c ∈ normalizeL s.data := hc
  simp only [normalizeL] at hc'
  split at hc'
  · simp at hc'
  · have h1 := mem_pyStrip c _ hc'
    rcases mem_collapseWsAux c _ _ h1 with h | ⟨h2, h3⟩
    · subst h
      simp
    · rcases mem_stripPunct c _ h2 with h | ⟨h4, h5⟩
      · subst h
        simp [isPySpace] at h3
      · have hw : isWordChar c = true := by
          cases hx : isWordChar c
          · rw [hx] at h5
            simp only [Bool.false_or] at h5
            rw [h5] at h3
            simp at h3
          · rfl
        have hnup : isAsciiUpper c = false := by
          rcases mem_applyReplacements c _ h4 with h | h
          · rcases List.mem_map.mp h with ⟨d, hd, hdc⟩
            exact hdc ▸ lowerChar_not_upper d
          · unfold isAsciiLower at h
            unfold isAsciiUpper
            simp only [Bool.and_eq_true, decide_eq_true_eq] at h
            simp only [Bool.and_eq_false_iff, decide_eq_false_iff_not]
            omega
        unfold isWordChar at hw
        rw [hnup] at hw
        simp only [Bool.false_or, Bool.or_eq_true] at hw
        rcases hw with (h | h) | h
        · simp [h]
        · simp [h]
        · have h9 := char_underscore_of_toNat c (by simpa using h)
          simp [h9]

/-- C9, amended: every character of a normalized string is a lowercase ASCII
letter, a digit, an underscore, or a single space (underscores survive
because `\w` includes them), punctuation is destroyed and whitespace
collapsed, and in particular
`normalize_for_search "Hello,  World!" = "hello world"` while
`normalize_for_search "a_b" = "a_b"`. -/
theorem claim_C9_amended :
    (∀ (s : String), ∀ c ∈ (normalize_for_search s).data,
      (isAsciiLower c || isAsciiDigit c || c = '_' || c = ' ') = true) ∧
    normalize_for_search "Hello,  World!" = "hello world" ∧
    normalize_for_search "a_b" = "a_b" :=
  ⟨normalize_chars_aux, by decide, by decide⟩

/-- C9, witness for the amended theorem at `s = "Hi!"`, `c = 'h'`. -/
theorem claim_C9_amended_witness :
    'h' ∈ (normalize_for_search "Hi!").data ∧
    (isAsciiLower 'h' || isAsciiDigit 'h' || 'h' = '_' || 'h' = ' ') = true :=
  ⟨by decide, claim_C9_amended.1 "Hi!" 'h' (by decide)⟩

/-! ### C8: idempotence of `normalize_for_search`

The proof tracks the maximal word-character runs (`wordRuns`) of the text
through the pipeline: `\b`-delimited whole-word replacement rewrites exactly
the runs equal to the key, the punctuation/whitespace stages preserve runs,
and the character classification of normalized output shows every stage of a
second pass is the identity. -/

theorem space_not_word (c : Char) (h : isPySpace c = true) :
    isWordChar c = false := by
  unfold isPySpace at h
  unfold isWordChar isAsciiUpper isAsciiLower isAsciiDigit
  simp only [Bool.or_eq_true, decide_eq_true_eq, Bool.and_eq_true] at h ⊢
  simp only [Bool.or_eq_false_iff, Bool.and_eq_false_iff,
    decide_eq_false_iff_not]
  omega

theorem wordRuns_cons_not_word (c : Char) (l : List Char)
    (h : isWordChar c = false) : wordRuns (c :: l) = wordRuns l := by
  rw [wordRuns, if_neg (by simp [h])]


theorem wordRunsStep_ne_nil (c : Char) (rest : List Char)
    (rs : List (List Char)) : wordRunsStep c rest rs ≠ [] := by
  rcases rest with _ | ⟨d, t⟩
  · simp [wordRunsStep]
  · rcases rs with _ | ⟨r, rs'⟩
    · simp [wordRunsStep]
    · by_cases hd : isWordChar d = true <;> simp [wordRunsStep, hd]

theorem wordRuns_ne_nil (d : Char) (l : List Char) (h : isWordChar d = true) :
    wordRuns (d :: l) ≠ [] := by
  rw [wordRuns, if_pos h]
  exact wordRunsStep_ne_nil d l (wordRuns l)

theorem wordRuns_cons_word_nil (c : Char) (h : isWordChar c = true) :
    wordRuns [c] = [[c]] := by
  rw [wordRuns, if_pos h]
  simp [wordRunsStep]

theorem wordRuns_cons_word_break (c d : Char) (l : List Char)
    (hc : isWordChar c = true) (hd : isWordChar d = false) :
    wordRuns (c :: d :: l) = [c] :: wordRuns (d :: l) := by
  rcases hw : wordRuns (d :: l) with _ | ⟨r, rs⟩
  · rw [wordRuns, if_pos hc, hw]
    simp [wordRunsStep]
  · rw [wordRuns, if_pos hc, hw]
    simp [wordRunsStep, hd]

theorem wordRuns_cons_word_merge (c d : Char) (l : List Char)
    (hc : isWordChar c = true) (hd : isWordChar d = true) (r : List Char)
    (rs : List (List Char)) (hw : wordRuns (d :: l) = r :: rs) :
    wordRuns (c :: d :: l) = (c :: r) :: rs := by
  rw [wordRuns, if_pos hc, hw]
  simp [wordRunsStep, hd]

theorem wordRuns_word_append (w : List Char) (hw : w ≠ [])
    (hall : ∀ c ∈ w, isWordChar c = true) :
    ∀ l, (l = [] ∨ ∃ d l', l = d :: l' ∧ isWordChar d = false) →
      wordRuns (w ++ l) = w :: wordRuns l := by
  induction w with
  | nil => simp at hw
  | cons x xs ih =>
    intro l hl
    have hx : isWordChar x = true := hall x (List.mem_cons_self x xs)
    cases xs with
    | nil =>
      rcases hl with h | ⟨d, l', h, hd⟩
      · subst h
        simpa using wordRuns_cons_word_nil x hx
      · subst h
        simpa using wordRuns_cons_word_break x d l' hx hd
    | cons y ys =>
      have hy : isWordChar y = true :=
        hall y (List.mem_cons_of_mem x (List.mem_cons_self y ys))
      have ihy := ih (by simp)
        (fun c hc => hall c (List.mem_cons_of_mem x hc)) l hl
      have := wordRuns_cons_word_merge x y (ys ++ l) hx hy (y :: ys)
        (wordRuns l) (by simpa using ihy)
      simpa using this

theorem wordRuns_all_space (l : List Char)
    (h : ∀ c ∈ l, isPySpace c = true) : wordRuns l = [] := by
  induction l with
  | nil => rfl
  | cons c cs ih =>
    rw [wordRuns_cons_not_word c cs (space_not_word c (h c (List.mem_cons_self c cs)))]
    exact ih (fun d hd => h d (List.mem_cons_of_mem c hd))

theorem wordRuns_map (f : Char → Char)
    (hword : ∀ c, isWordChar (f c) = isWordChar c)
    (hfix : ∀ c, isWordChar c = true → f c = c) :
    ∀ l, wordRuns (l.map f) = wordRuns l := by
  intro l
  induction l with
  | nil => rfl
  | cons c cs ih =>
    by_cases hc : isWordChar c = true
    · have hfc : f c = c := hfix c hc
      cases cs with
      | nil =>
        simp only [List.map_cons, List.map_nil, hfc]
      | cons d cs' =>
        by_cases hd : isWordChar d = true
        · have hfd : f d = d := hfix d hd
          rcases hw : wordRuns (d :: cs') with _ | ⟨r, rs⟩
          · exact absurd hw (wordRuns_ne_nil d cs' hd)
          · have hw2 : wordRuns (f d :: cs'.map f) = r :: rs := by
              have := ih
              simp only [List.map_cons] at this
              rw [this]
              exact hw
            have e1 := wordRuns_cons_word_merge c d cs' hc hd r rs hw
            have e2 := wordRuns_cons_word_merge (f c) (f d) (cs'.map f)
              (by rw [hword]; exact hc) (by rw [hword]; exact hd) r rs hw2
            simp only [List.map_cons]
            rw [e2, e1, hfc]
        · have hd' : isWordChar d = false := by simpa using hd
          have e1 := wordRuns_cons_word_break c d cs' hc hd'
          have e2 := wordRuns_cons_word_break (f c) (f d) (cs'.map f)
            (by rw [hword]; exact hc) (by rw [hword]; exact hd')
          simp only [List.map_cons]
          rw [e2, e1, hfc]
          have h3 : wordRuns (f d :: cs'.map f) = wordRuns (d :: cs') := by
            have := ih
            simpa using this
          rw [h3]
    · have hc' : isWordChar c = false := by simpa using hc
      simp only [List.map_cons]
      rw [wordRuns_cons_not_word (f c) _ (by rw [hword]; exact hc'),
        wordRuns_cons_not_word c _ hc']
      exact ih

theorem wordRuns_stripPunct (l : List Char) :
    wordRuns (stripPunct l) = wordRuns l := by
  apply wordRuns_map
  · intro c
    by_cases h : (isWordChar c || isPySpace c) = true
    · rw [if_pos h]
    · rw [if_neg h]
      have h1 : isWordChar c = false := by
        rcases hx : isWordChar c
        · rfl
        · exact absurd (by simp [hx]) h
      rw [h1]
      decide
  · intro c hc
    simp [hc]

theorem wordRuns_drop_space :
    ∀ l : List Char, wordRuns (l.dropWhile isPySpace) = wordRuns l := by
  intro l
  induction l with
  | nil => rfl
  | cons c cs ih =>
    by_cases hc : isPySpace c = true
    · rw [List.dropWhile_cons_of_pos hc, ih,
        wordRuns_cons_not_word c cs (space_not_word c hc)]
    · rw [List.dropWhile_cons_of_neg (by simpa using hc)]

theorem wordRuns_collapseAux :
    ∀ (n : Nat) (l : List Char), l.length ≤ n → ∀ b,
      wordRuns (collapseWsAux b l) = wordRuns l := by
  intro n
  induction n with
  | zero =>
    intro l hl b
    have : l = [] := List.length_eq_zero.mp (Nat.le_zero.mp hl)
    subst this
    rfl
  | succ n ih =>
    intro l hl b
    cases l with
    | nil => rfl
    | cons c cs =>
      have hcs : cs.length ≤ n := by
        simp only [List.length_cons] at hl
        omega
      by_cases hc : isPySpace c = true
      · have hcw := space_not_word c hc
        cases b with
        | true =>
          have hstep : collapseWsAux true (c :: cs) = collapseWsAux true cs := by
            simp [collapseWsAux, hc]
          rw [hstep, ih cs hcs true, wordRuns_cons_not_word c cs hcw]
        | false =>
          have hstep : collapseWsAux false (c :: cs)
              = ' ' :: collapseWsAux true cs := by
            simp [collapseWsAux, hc]
          rw [hstep, wordRuns_cons_not_word ' ' _ (by decide), ih cs hcs true,
            wordRuns_cons_not_word c cs hcw]
      · have hstep : collapseWsAux b (c :: cs) = c :: collapseWsAux false cs := by
          simp [collapseWsAux, hc]
        rw [hstep]
        by_cases hw : isWordChar c = true
        · cases cs with
          | nil => simp [collapseWsAux]
          | cons d cs' =>
            have hcs' : cs'.length ≤ n := by
              simp only [List.length_cons] at hl
              omega
            by_cases hd : isPySpace d = true
            · have hdw := space_not_word d hd
              have hout : collapseWsAux false (d :: cs')
                  = ' ' :: collapseWsAux true cs' := by
                simp [collapseWsAux, hd]
              rw [hout, wordRuns_cons_word_break c ' ' _ hw (by decide),
                wordRuns_cons_word_break c d cs' hw hdw,
                wordRuns_cons_not_word ' ' _ (by decide),
                wordRuns_cons_not_word d cs' hdw, ih cs' hcs' true]
            · have hout : collapseWsAux false (d :: cs')
                  = d :: collapseWsAux false cs' := by
                simp [collapseWsAux, hd]
              by_cases hdw : isWordChar d = true
              · rcases hrw : wordRuns (d :: cs') with _ | ⟨r, rs⟩
                · exact absurd hrw (wordRuns_ne_nil d cs' hdw)
                · have hval : wordRuns (d :: collapseWsAux false cs') = r :: rs := by
                    have h1 : d :: collapseWsAux false cs'
                        = collapseWsAux false (d :: cs') := hout.symm
                    rw [h1, ih (d :: cs') (by simpa using hl) false, hrw]
                  rw [hout, wordRuns_cons_word_merge c d _ hw hdw r rs hval,
                    wordRuns_cons_word_merge c d cs' hw hdw r rs hrw]
              · have hdw' : isWordChar d = false := by simpa using hdw
                rw [hout, wordRuns_cons_word_break c d _ hw hdw',
                  wordRuns_cons_word_break c d cs' hw hdw',
                  wordRuns_cons_not_word d _ hdw',
                  wordRuns_cons_not_word d cs' hdw', ih cs' hcs' false]
        · have hw' : isWordChar c = false := by simpa using hw
          rw [wordRuns_cons_not_word c _ hw', wordRuns_cons_not_word c cs hw',
            ih cs hcs false]

theorem wordRuns_collapseWs (l : List Char) :
    wordRuns (collapseWs l) = wordRuns l :=
  wordRuns_collapseAux l.length l (Nat.le_refl _) false

theorem rstrip_eq_nil_all_space :
    ∀ l : List Char, rstrip l = [] → ∀ c ∈ l, isPySpace c = true := by
  intro l
  induction l with
  | nil => simp
  | cons c cs ih =>
    intro h d hd
    rw [rstrip] at h
    split at h
    · rename_i hcond
      simp only [Bool.and_eq_true, decide_eq_true_eq] at hcond
      rcases hcond with ⟨h1, h2⟩
      rcases List.mem_cons.mp hd with hd | hd
      · exact hd ▸ h2
      · exact ih (by simpa using h1) d hd
    · simp at h

theorem rstrip_cons_shape (c : Char) (cs : List Char) :
    rstrip (c :: cs) = [] ∨ rstrip (c :: cs) = c :: rstrip cs := by
  rw [rstrip]
  split
  · exact Or.inl rfl
  · exact Or.inr rfl

theorem wordRuns_rstrip : ∀ l : List Char, wordRuns (rstrip l) = wordRuns l := by
  intro l
  induction l with
  | nil => rfl
  | cons c cs ih =>
    rw [rstrip]
    split
    · rename_i hcond
      simp only [Bool.and_eq_true, decide_eq_true_eq] at hcond
      rcases hcond with ⟨h1, h2⟩
      have hall : ∀ d ∈ cs, isPySpace d = true :=
        rstrip_eq_nil_all_space cs h1
      rw [wordRuns_cons_not_word c cs (space_not_word c h2),
        wordRuns_all_space cs hall]
      rfl
    · rename_i hcond
      by_cases hw : isWordChar c = true
      · cases cs with
        | nil => rfl
        | cons d cs' =>
          rcases rstrip_cons_shape d cs' with hnil | hcons
          · rw [hnil]
            have hall : ∀ e ∈ d :: cs', isPySpace e = true :=
              rstrip_eq_nil_all_space (d :: cs') hnil
            have hdw : isWordChar d = false :=
              space_not_word d (hall d (List.mem_cons_self d cs'))
            rw [wordRuns_cons_word_nil c hw,
              wordRuns_cons_word_break c d cs' hw hdw,
              wordRuns_cons_not_word d cs' hdw,
              wordRuns_all_space cs'
                (fun e he => hall e (List.mem_cons_of_mem d he))]
          · by_cases hdw : isWordChar d = true
            · rcases hrw : wordRuns (d :: cs') with _ | ⟨r, rs⟩
              · exact absurd hrw (wordRuns_ne_nil d cs' hdw)
              · have hval : wordRuns (d :: rstrip cs') = r :: rs := by
                  have : d :: rstrip cs' = rstrip (d :: cs') := hcons.symm
                  rw [this, ih, hrw]
                rw [hcons, wordRuns_cons_word_merge c d _ hw hdw r rs hval,
                  wordRuns_cons_word_merge c d cs' hw hdw r rs hrw]
            · have hdw' : isWordChar d = false := by simpa using hdw
              have h2 : wordRuns (rstrip cs') = wordRuns cs' := by
                have h3 := ih
                rw [hcons, wordRuns_cons_not_word d _ hdw',
                  wordRuns_cons_not_word d cs' hdw'] at h3
                exact h3
              rw [hcons, wordRuns_cons_word_break c d _ hw hdw',
                wordRuns_cons_word_break c d cs' hw hdw',
                wordRuns_cons_not_word d _ hdw',
                wordRuns_cons_not_word d cs' hdw', h2]
      · have hw' : isWordChar c = false := by simpa using hw
        rw [wordRuns_cons_not_word c _ hw', wordRuns_cons_not_word c cs hw']
        exact ih

theorem wordRuns_pyStrip (l : List Char) :
    wordRuns (pyStrip l) = wordRuns l := by
  unfold pyStrip lstrip
  rw [wordRuns_rstrip, wordRuns_drop_space]

theorem goodRun_tail (c : Char) (l : List Char) (h : goodRun (c :: l) = true) :
    goodRun l = true := by
  cases l with
  | nil => rfl
  | cons d rest =>
    rw [goodRun] at h
    exact (Bool.and_eq_true _ _ ▸ h).2

theorem goodRun_head (c : Char) (l : List Char) (h : goodRun (c :: l) = true)
    (hsp : isPySpace c = true) :
    c = ' ' ∧ (l = [] ∨ ∃ d l', l = d :: l' ∧ isPySpace d = false) := by
  cases l with
  | nil =>
    rw [goodRun] at h
    simp only [hsp, Bool.not_true, Bool.false_or, decide_eq_true_eq] at h
    exact ⟨h, Or.inl rfl⟩
  | cons d rest =>
    rw [goodRun] at h
    have h1 := (Bool.and_eq_true _ _ ▸ h).1
    simp only [hsp, Bool.not_true, Bool.false_or, Bool.and_eq_true,
      decide_eq_true_eq, Bool.not_eq_true'] at h1
    exact ⟨h1.1, Or.inr ⟨d, rest, rfl, h1.2⟩⟩

theorem goodRun_cons (c : Char) (l : List Char) (hl : goodRun l = true)
    (hc : isPySpace c = false ∨
      (c = ' ' ∧ (l = [] ∨ ∃ d l', l = d :: l' ∧ isPySpace d = false))) :
    goodRun (c :: l) = true := by
  cases l with
  | nil =>
    rw [goodRun]
    rcases hc with hc | ⟨hc, _⟩
    · simp [hc]
    · simp [hc]
  | cons d rest =>
    rw [goodRun]
    rw [Bool.and_eq_true]
    refine ⟨?_, hl⟩
    rcases hc with hc | ⟨hc, hd⟩
    · simp [hc]
    · rcases hd with hd | ⟨e, l', he, hsp⟩
      · simp at hd
      · rcases he with ⟨rfl, rfl⟩
        simp [hc, hsp]

theorem collapseAux_true_head (l : List Char) :
    collapseWsAux true l = [] ∨ ∃ d l', collapseWsAux true l = d :: l'
      ∧ isPySpace d = false := by
  induction l with
  | nil => exact Or.inl rfl
  | cons c cs ih =>
    by_cases hc : isPySpace c = true
    · have : collapseWsAux true (c :: cs) = collapseWsAux true cs := by
        simp [collapseWsAux, hc]
      rw [this]
      exact ih
    · have h2 : collapseWsAux true (c :: cs) = c :: collapseWsAux false cs := by
        simp [collapseWsAux, hc]
      exact Or.inr ⟨c, _, h2, by simpa using hc⟩

theorem goodRun_collapseAux :
    ∀ (n : Nat) (l : List Char), l.length ≤ n → ∀ b,
      goodRun (collapseWsAux b l) = true := by
  intro n
  induction n with
  | zero =>
    intro l hl b
    have : l = [] := List.length_eq_zero.mp (Nat.le_zero.mp hl)
    subst this
    rfl
  | succ n ih =>
    intro l hl b
    cases l with
    | nil => rfl
    | cons c cs =>
      have hcs : cs.length ≤ n := by
        simp only [List.length_cons] at hl
        omega
      by_cases hc : isPySpace c = true
      · cases b with
        | true =>
          have hstep : collapseWsAux true (c :: cs) = collapseWsAux true cs := by
            simp [collapseWsAux, hc]
          rw [hstep]
          exact ih cs hcs true
        | false =>
          have hstep : collapseWsAux false (c :: cs)
              = ' ' :: collapseWsAux true cs := by
            simp [collapseWsAux, hc]
          rw [hstep]
          exact goodRun_cons ' ' _ (ih cs hcs true)
            (Or.inr ⟨rfl, collapseAux_true_head cs⟩)
      · have hstep : collapseWsAux b (c :: cs) = c :: collapseWsAux false cs := by
          simp [collapseWsAux, hc]
        rw [hstep]
        exact goodRun_cons c _ (ih cs hcs false)
          (Or.inl (by simpa using hc))

theorem collapseAux_fix :
    ∀ (n : Nat) (l : List Char), l.length ≤ n → goodRun l = true →
      collapseWsAux false l = l := by
  intro n
  induction n with
  | zero =>
    intro l hl _
    have : l = [] := List.length_eq_zero.mp (Nat.le_zero.mp hl)
    subst this
    rfl
  | succ n ih =>
    intro l hl hg
    cases l with
    | nil => rfl
    | cons c cs =>
      have hcs : cs.length ≤ n := by
        simp only [List.length_cons] at hl
        omega
      by_cases hc : isPySpace c = true
      · rcases goodRun_head c cs hg hc with ⟨hsp, hshape⟩
        have hstep : collapseWsAux false (c :: cs)
            = ' ' :: collapseWsAux true cs := by
          simp [collapseWsAux, hc]
        rw [hstep, hsp]
        congr 1
        rcases hshape with h | ⟨d, l', rfl, hd⟩
        · subst h
          rfl
        · have h2 : collapseWsAux true (d :: l') = d :: collapseWsAux false l' := by
            simp [collapseWsAux, hd]
          have h3 : collapseWsAux false (d :: l') = d :: collapseWsAux false l' := by
            simp [collapseWsAux, hd]
          rw [h2, ← h3]
          exact ih (d :: l') (by simpa using hcs) (goodRun_tail c _ hg)
      · have hstep : collapseWsAux false (c :: cs)
            = c :: collapseWsAux false cs := by
          simp [collapseWsAux, hc]
        rw [hstep]
        congr 1
        exact ih cs hcs (goodRun_tail c _ hg)

theorem goodRun_dropWhile_space (l : List Char) (h : goodRun l = true) :
    goodRun (l.dropWhile isPySpace) = true := by
  induction l with
  | nil => exact h
  | cons c cs ih =>
    by_cases hc : isPySpace c = true
    · rw [List.dropWhile_cons_of_pos hc]
      exact ih (goodRun_tail c cs h)
    · rw [List.dropWhile_cons_of_neg (by simpa using hc)]
      exact h

theorem goodRun_rstrip : ∀ (l : List Char), goodRun l = true →
    goodRun (rstrip l) = true := by
  intro l
  induction l with
  | nil => intro h; exact h
  | cons c cs ih =>
    intro h
    rw [rstrip]
    split
    · rfl
    · rename_i hcond
      apply goodRun_cons c _ (ih (goodRun_tail c cs h))
      by_cases hc : isPySpace c = true
      · rcases goodRun_head c cs h hc with ⟨hsp, hshape⟩
        refine Or.inr ⟨hsp, ?_⟩
        rcases hshape with h2 | ⟨d, l', rfl, hd⟩
        · subst h2
          exact Or.inl rfl
        · rcases rstrip_cons_shape d l' with hnil | hcons
          · rw [hnil] at hcond ⊢
            simp [hc] at hcond
          · rw [hcons]
            exact Or.inr ⟨d, _, rfl, hd⟩
      · exact Or.inl (by simpa using hc)

theorem rstrip_idem : ∀ l : List Char, rstrip (rstrip l) = rstrip l := by
  intro l
  induction l with
  | nil => rfl
  | cons c cs ih =>
    rw [rstrip]
    split
    · rfl
    · rename_i hcond
      rw [rstrip, ih]
      rw [if_neg hcond]

theorem lstrip_head_not_space (l : List Char) :
    l.dropWhile isPySpace = [] ∨ ∃ d l', l.dropWhile isPySpace = d :: l'
      ∧ isPySpace d = false := by
  rcases hx : l.dropWhile isPySpace with _ | ⟨d, l'⟩
  · exact Or.inl rfl
  · refine Or.inr ⟨d, l', rfl, ?_⟩
    have := List.head?_dropWhile_not isPySpace l
    rw [hx] at this
    simpa using this

theorem rstrip_head_shape : ∀ (l : List Char),
    rstrip l = [] ∨ ∃ d l' t, l = d :: l' ∧ rstrip l = d :: t := by
  intro l
  cases l with
  | nil => exact Or.inl rfl
  | cons c cs =>
    rcases rstrip_cons_shape c cs with h | h
    · exact Or.inl h
    · exact Or.inr ⟨c, cs, rstrip cs, rfl, h⟩

theorem pyStrip_idem (l : List Char) : pyStrip (pyStrip l) = pyStrip l := by
  unfold pyStrip lstrip
  have hl : (rstrip (l.dropWhile isPySpace)).dropWhile isPySpace
      = rstrip (l.dropWhile isPySpace) := by
    rcases rstrip_head_shape (l.dropWhile isPySpace) with h | ⟨d, l', t, heq, hr⟩
    · rw [h]
      rfl
    · rw [hr]
      have hd : isPySpace d = false := by
        rcases lstrip_head_not_space l with h2 | ⟨e, l2, h2, he⟩
        · rw [h2] at heq
          exact absurd heq (by simp)
        · rw [h2] at heq
          injection heq with hde hl2
          subst hde
          exact he
      rw [List.dropWhile_cons_of_neg (by simpa using hd)]
  rw [hl, rstrip_idem]

theorem replaceWordAux_nil (k0 : Char) (krest out : List Char) (fuel : Nat)
    (prev : Option Char) : replaceWordAux k0 krest out fuel prev [] = [] := by
  cases fuel <;> rfl

theorem prefix_head {k0 c : Char} {krest rest : List Char}
    (h : (k0 :: krest).isPrefixOf (c :: rest) = true) : k0 = c := by
  rw [List.isPrefixOf_iff_prefix] at h
  exact (List.cons_prefix_cons.mp h).1

theorem prefix_drop {l s : List Char} (h : l.isPrefixOf s = true) :
    s = l ++ s.drop l.length := by
  rw [List.isPrefixOf_iff_prefix] at h
  obtain ⟨t, ht⟩ := h
  rw [← ht, List.drop_left]

theorem replaceWordAux_step_nopre (k0 : Char) (krest out : List Char)
    (fuel : Nat) (prev : Option Char) (c : Char) (rest : List Char)
    (hpre : (k0 :: krest).isPrefixOf (c :: rest) = false) :
    replaceWordAux k0 krest out (fuel + 1) prev (c :: rest)
      = c :: replaceWordAux k0 krest out fuel (some c) rest := by
  simp [replaceWordAux, hpre]

theorem replaceWordAux_step_nonword (k0 : Char) (krest out : List Char)
    (hk0 : isWordChar k0 = true) (fuel : Nat) (prev : Option Char)
    (c : Char) (rest : List Char) (hc : isWordChar c = false) :
    replaceWordAux k0 krest out (fuel + 1) prev (c :: rest)
      = c :: replaceWordAux k0 krest out fuel (some c) rest := by
  apply replaceWordAux_step_nopre
  rw [Bool.eq_false_iff]
  intro h
  rw [prefix_head h] at hk0
  rw [hc] at hk0
  exact Bool.false_ne_true hk0

theorem replaceWordAux_step_wordprev (k0 : Char) (krest out : List Char)
    {p : Char} (hp : isWordChar p = true) (fuel : Nat) (c : Char)
    (rest : List Char) :
    replaceWordAux k0 krest out (fuel + 1) (some p) (c :: rest)
      = c :: replaceWordAux k0 krest out fuel (some c) rest := by
  simp [replaceWordAux, hp]

theorem replaceWordAux_step_badtail (k0 : Char) (krest out : List Char)
    (fuel : Nat) (prev : Option Char) (c : Char) (rest : List Char)
    {d : Char} {t : List Char} (htl : rest.drop krest.length = d :: t)
    (hd : isWordChar d = true) :
    replaceWordAux k0 krest out (fuel + 1) prev (c :: rest)
      = c :: replaceWordAux k0 krest out fuel (some c) rest := by
  simp [replaceWordAux, htl, hd]

theorem replaceWordAux_step_match (k0 : Char) (krest out : List Char)
    (fuel : Nat) (prev : Option Char) (c : Char) (rest : List Char)
    (hpre : (k0 :: krest).isPrefixOf (c :: rest) = true)
    (hprev : prevWord prev = false)
    (hb : (rest.drop krest.length).takeWhile isWordChar = []) :
    replaceWordAux k0 krest out (fuel + 1) prev (c :: rest)
      = out ++ replaceWordAux k0 krest out fuel (some (krest.getLastD k0))
          (rest.drop krest.length) := by
  have hC : (match rest.drop krest.length with
      | [] => true
      | d :: _ => !isWordChar d) = true := by
    cases htl : rest.drop krest.length with
    | nil => rfl
    | cons d t =>
      rw [htl] at hb
      by_cases hdw : isWordChar d = true
      · rw [List.takeWhile_cons, if_pos hdw] at hb
        simp at hb
      · simp only [Bool.not_eq_true] at hdw
        simp [hdw]
  cases prev with
  | none =>
    simp only [replaceWordAux, hC, Bool.and_true]
    rw [if_pos hpre]
  | some p =>
    have hp : isWordChar p = false := by simpa [prevWord] using hprev
    simp only [replaceWordAux, hC, hp, Bool.not_false, Bool.and_true]
    rw [if_pos hpre]

theorem replaceWordAux_fuel (k0 : Char) (krest out : List Char) :
    ∀ (f1 f2 : Nat) (prev : Option Char) (s : List Char),
      s.length ≤ f1 → s.length ≤ f2 →
      replaceWordAux k0 krest out f1 prev s
        = replaceWordAux k0 krest out f2 prev s := by
  intro f1
  induction f1 with
  | zero =>
    intro f2 prev s h1 _
    have hs : s = [] := by
      cases s with
      | nil => rfl
      | cons c t => simp at h1
    subst hs
    rw [replaceWordAux_nil, replaceWordAux_nil]
  | succ f ih =>
    intro f2 prev s h1 h2
    cases s with
    | nil => rw [replaceWordAux_nil, replaceWordAux_nil]
    | cons c rest =>
      cases f2 with
      | zero => simp at h2
      | succ f2' =>
        have hr1 : rest.length ≤ f := by
          simp only [List.length_cons] at h1
          omega
        have hr2 : rest.length ≤ f2' := by
          simp only [List.length_cons] at h2
          omega
        have hd : (rest.drop krest.length).length ≤ rest.length := by
          rw [List.length_drop]
          omega
        simp only [replaceWordAux]
        split
        · congr 1
          exact ih f2' _ _ (le_trans hd hr1) (le_trans hd hr2)
        · congr 1
          exact ih f2' _ _ hr1 hr2

theorem dropWhile_word_shape (l : List Char) :
    l.dropWhile isWordChar = [] ∨
      ∃ d t, l.dropWhile isWordChar = d :: t ∧ isWordChar d = false := by
  induction l with
  | nil => exact Or.inl rfl
  | cons c cs ih =>
    by_cases hc : isWordChar c = true
    · rw [List.dropWhile_cons, if_pos hc]
      exact ih
    · rw [List.dropWhile_cons, if_neg hc]
      exact Or.inr ⟨c, cs, rfl, by simpa using hc⟩

theorem takeWhile_dropWhile_word (l : List Char) :
    (l.dropWhile isWordChar).takeWhile isWordChar = [] := by
  rcases dropWhile_word_shape l with h | ⟨d, t, h, hd⟩
  · rw [h]
    rfl
  · rw [h, List.takeWhile_cons, if_neg (by simp [hd])]

theorem takeWhile_eq_nil_shape (l : List Char)
    (h : l.takeWhile isWordChar = []) :
    l = [] ∨ ∃ d t, l = d :: t ∧ isWordChar d = false := by
  cases l with
  | nil => exact Or.inl rfl
  | cons c cs =>
    refine Or.inr ⟨c, cs, rfl, ?_⟩
    by_cases hc : isWordChar c = true
    · rw [List.takeWhile_cons, if_pos hc] at h
      simp at h
    · simpa using hc

theorem replaceWordAux_shape (k0 : Char) (krest out : List Char)
    (hk0 : isWordChar k0 = true) (fuel : Nat) (prev : Option Char)
    (l : List Char) (hlen : l.length ≤ fuel)
    (h : l.takeWhile isWordChar = []) :
    replaceWordAux k0 krest out fuel prev l = [] ∨
      ∃ d t, replaceWordAux k0 krest out fuel prev l = d :: t ∧
        isWordChar d = false := by
  rcases takeWhile_eq_nil_shape l h with rfl | ⟨d, t, rfl, hd⟩
  · exact Or.inl (replaceWordAux_nil k0 krest out fuel prev)
  · cases fuel with
    | zero => simp at hlen
    | succ f =>
      exact Or.inr ⟨d, _,
        replaceWordAux_step_nonword k0 krest out hk0 f prev d t hd, hd⟩

theorem replaceWordAux_run (k0 : Char) (krest out : List Char) :
    ∀ (fuel : Nat) (prev : Option Char) (s : List Char), s.length ≤ fuel →
      prevWord prev = true →
      ∃ prev', prevWord prev' = true ∧
        replaceWordAux k0 krest out fuel prev s
          = s.takeWhile isWordChar
            ++ replaceWordAux k0 krest out fuel prev'
                (s.dropWhile isWordChar) := by
  intro fuel
  induction fuel with
  | zero =>
    intro prev s hlen hprev
    have hs : s = [] := by
      cases s with
      | nil => rfl
      | cons c t => simp at hlen
    subst hs
    exact ⟨prev, hprev, rfl⟩
  | succ f ih =>
    intro prev s hlen hprev
    cases s with
    | nil =>
      exact ⟨prev, hprev, by simp [replaceWordAux_nil]⟩
    | cons c rest =>
      have hr : rest.length ≤ f := by
        simp only [List.length_cons] at hlen
        omega
      by_cases hc : isWordChar c = true
      · obtain ⟨p, rfl, hp⟩ : ∃ p, prev = some p ∧ isWordChar p = true := by
          cases prev with
          | none => simp [prevWord] at hprev
          | some p => exact ⟨p, rfl, by simpa [prevWord] using hprev⟩
        obtain ⟨prev', hp', heq⟩ :=
          ih (some c) rest hr (by simpa [prevWord] using hc)
        refine ⟨prev', hp', ?_⟩
        rw [replaceWordAux_step_wordprev k0 krest out hp f c rest, heq,
          List.takeWhile_cons, if_pos hc, List.dropWhile_cons, if_pos hc,
          List.cons_append]
        congr 1
        congr 1
        apply replaceWordAux_fuel
        · exact le_trans (List.dropWhile_sublist isWordChar).length_le hr
        · exact le_trans (List.dropWhile_sublist isWordChar).length_le
            (le_trans hr (Nat.le_succ f))
      · refine ⟨prev, hprev, ?_⟩
        rw [List.takeWhile_cons, if_neg hc, List.dropWhile_cons, if_neg hc,
          List.nil_append]

theorem wordRuns_replaceWordAux (k0 : Char) (krest out : List Char)
    (hk0 : isWordChar k0 = true)
    (hkrest : ∀ c ∈ krest, isWordChar c = true)
    (hout_ne : out ≠ []) (hout : ∀ c ∈ out, isWordChar c = true) :
    ∀ (fuel : Nat) (s : List Char) (prev : Option Char), s.length ≤ fuel →
      (prevWord prev = false ∨ s.takeWhile isWordChar = []) →
      wordRuns (replaceWordAux k0 krest out fuel prev s)
        = (wordRuns s).map (fun w => if w = k0 :: krest then out else w) := by
  have hkeyall : ∀ x ∈ k0 :: krest, isWordChar x = true := by
    intro x hx
    rcases List.mem_cons.mp hx with rfl | hx
    · exact hk0
    · exact hkrest x hx
  intro fuel
  induction fuel with
  | zero =>
    intro s prev hlen _
    have hs : s = [] := by
      cases s with
      | nil => rfl
      | cons c t => simp at hlen
    subst hs
    rfl
  | succ f ih =>
    intro s prev hlen hok
    cases s with
    | nil =>
      rw [replaceWordAux_nil]
      rfl
    | cons c rest =>
      have hr : rest.length ≤ f := by
        simp only [List.length_cons] at hlen
        omega
      by_cases hc : isWordChar c = true
      · have hprev : prevWord prev = false := by
          rcases hok with h | h
          · exact h
          · rw [List.takeWhile_cons, if_pos hc] at h
            simp at h
        by_cases hm : (k0 :: krest).isPrefixOf (c :: rest) = true
            ∧ (rest.drop krest.length).takeWhile isWordChar = []
        · obtain ⟨hpre, hb⟩ := hm
          have hseq : c :: rest
              = (k0 :: krest) ++ rest.drop krest.length := by
            have h1 := prefix_drop hpre
            simpa [List.length_cons, List.drop_succ_cons] using h1
          have htlen : (rest.drop krest.length).length ≤ f := by
            rw [List.length_drop]
            omega
          have hshape := takeWhile_eq_nil_shape (rest.drop krest.length) hb
          have hFshape := replaceWordAux_shape k0 krest out hk0 f
            (some (krest.getLastD k0)) (rest.drop krest.length) htlen hb
          rw [replaceWordAux_step_match k0 krest out f prev c rest hpre
            hprev hb]
          rw [wordRuns_word_append out hout_ne hout _ hFshape]
          rw [ih (rest.drop krest.length) (some (krest.getLastD k0)) htlen
            (Or.inr hb)]
          rw [show c :: rest = (k0 :: krest) ++ rest.drop krest.length
            from hseq]
          rw [wordRuns_word_append (k0 :: krest) (by simp) hkeyall
            (rest.drop krest.length) hshape]
          rw [List.map_cons]
          congr 1
          rw [if_pos rfl]
        · push_neg at hm
          have hstep : replaceWordAux k0 krest out (f + 1) prev (c :: rest)
              = c :: replaceWordAux k0 krest out f (some c) rest := by
            by_cases hpre : (k0 :: krest).isPrefixOf (c :: rest) = true
            · have hbb := hm hpre
              cases htl2 : rest.drop krest.length with
              | nil => exact absurd (by rw [htl2]; rfl) hbb
              | cons d t =>
                have hdw : isWordChar d = true := by
                  by_cases hq : isWordChar d = true
                  · exact hq
                  · exact absurd
                      (by rw [htl2, List.takeWhile_cons, if_neg hq]) hbb
                exact replaceWordAux_step_badtail k0 krest out f prev c rest
                  htl2 hdw
            · exact replaceWordAux_step_nopre k0 krest out f prev c rest
                (Bool.eq_false_iff.mpr hpre)
          obtain ⟨prev', hp', hM⟩ := replaceWordAux_run k0 krest out f
            (some c) rest hr (by simpa [prevWord] using hc)
          have hr3len : (rest.dropWhile isWordChar).length ≤ f :=
            le_trans (List.dropWhile_sublist isWordChar).length_le hr
          have hr3tw := takeWhile_dropWhile_word rest
          have hr3shape :=
            takeWhile_eq_nil_shape (rest.dropWhile isWordChar) hr3tw
          have hFshape := replaceWordAux_shape k0 krest out hk0 f prev'
            (rest.dropWhile isWordChar) hr3len hr3tw
          have hRw : ∀ x ∈ c :: rest.takeWhile isWordChar,
              isWordChar x = true := by
            intro x hx
            rcases List.mem_cons.mp hx with rfl | hx
            · exact hc
            · exact List.mem_takeWhile_imp hx
          have hsplit : c :: rest
              = (c :: rest.takeWhile isWordChar)
                  ++ rest.dropWhile isWordChar := by
            rw [List.cons_append, List.takeWhile_append_dropWhile]
          have hRkey : c :: rest.takeWhile isWordChar ≠ k0 :: krest := by
            intro hEq
            have hpre2 : (k0 :: krest).isPrefixOf (c :: rest) = true := by
              rw [List.isPrefixOf_iff_prefix, ← hEq, hsplit]
              exact List.prefix_append _ _
            have hbb := hm hpre2
            injection hEq with hck htw
            have hrsplit : krest ++ rest.dropWhile isWordChar = rest := by
              rw [← htw]
              exact List.takeWhile_append_dropWhile isWordChar rest
            have hdropEq : rest.drop krest.length
                = rest.dropWhile isWordChar := by
              conv_lhs => rw [← hrsplit]
              exact List.drop_left _ _
            exact hbb (by rw [hdropEq]; exact hr3tw)
          rw [hstep, hM, ← List.cons_append]
          rw [wordRuns_word_append (c :: rest.takeWhile isWordChar)
            (by simp) hRw _ hFshape]
          rw [ih (rest.dropWhile isWordChar) prev' hr3len (Or.inr hr3tw)]
          conv_rhs => rw [hsplit]
          rw [wordRuns_word_append (c :: rest.takeWhile isWordChar)
            (by simp) hRw (rest.dropWhile isWordChar) hr3shape]
          rw [List.map_cons, if_neg hRkey]
      · have hcf : isWordChar c = false := by simpa using hc
        rw [replaceWordAux_step_nonword k0 krest out hk0 f prev c rest hcf,
          wordRuns_cons_not_word c _ hcf, wordRuns_cons_not_word c rest hcf]
        exact ih rest (some c) hr (Or.inl (by simp [prevWord, hcf]))

theorem replaceWordAux_no_occ (k0 : Char) (krest out : List Char)
    (hk0 : isWordChar k0 = true)
    (hkrest : ∀ c ∈ krest, isWordChar c = true) :
    ∀ (fuel : Nat) (s : List Char) (prev : Option Char), s.length ≤ fuel →
      (prevWord prev = false ∨ s.takeWhile isWordChar = []) →
      (k0 :: krest) ∉ wordRuns s →
      replaceWordAux k0 krest out fuel prev s = s := by
  have hkeyall : ∀ x ∈ k0 :: krest, isWordChar x = true := by
    intro x hx
    rcases List.mem_cons.mp hx with rfl | hx
    · exact hk0
    · exact hkrest x hx
  intro fuel
  induction fuel with
  | zero =>
    intro s prev _ _ _
    rfl
  | succ f ih =>
    intro s prev hlen hok hno
    cases s with
    | nil => exact replaceWordAux_nil k0 krest out (f + 1) prev
    | cons c rest =>
      have hr : rest.length ≤ f := by
        simp only [List.length_cons] at hlen
        omega
      by_cases hc : isWordChar c = true
      · have hprev : prevWord prev = false := by
          rcases hok with h | h
          · exact h
          · rw [List.takeWhile_cons, if_pos hc] at h
            simp at h
        by_cases hm : (k0 :: krest).isPrefixOf (c :: rest) = true
            ∧ (rest.drop krest.length).takeWhile isWordChar = []
        · exfalso
          obtain ⟨hpre, hb⟩ := hm
          have hseq : c :: rest
              = (k0 :: krest) ++ rest.drop krest.length := by
            have h1 := prefix_drop hpre
            simpa [List.length_cons, List.drop_succ_cons] using h1
          apply hno
          rw [hseq, wordRuns_word_append (k0 :: krest) (by simp) hkeyall
            (rest.drop krest.length) (takeWhile_eq_nil_shape _ hb)]
          exact List.mem_cons_self _ _
        · push_neg at hm
          have hstep : replaceWordAux k0 krest out (f + 1) prev (c :: rest)
              = c :: replaceWordAux k0 krest out f (some c) rest := by
            by_cases hpre : (k0 :: krest).isPrefixOf (c :: rest) = true
            · have hbb := hm hpre
              cases htl2 : rest.drop krest.length with
              | nil => exact absurd (by rw [htl2]; rfl) hbb
              | cons d t =>
                have hdw : isWordChar d = true := by
                  by_cases hq : isWordChar d = true
                  · exact hq
                  · exact absurd
                      (by rw [htl2, List.takeWhile_cons, if_neg hq]) hbb
                exact replaceWordAux_step_badtail k0 krest out f prev c rest
                  htl2 hdw
            · exact replaceWordAux_step_nopre k0 krest out f prev c rest
                (Bool.eq_false_iff.mpr hpre)
          obtain ⟨prev', hp', hM⟩ := replaceWordAux_run k0 krest out f
            (some c) rest hr (by simpa [prevWord] using hc)
          have hr3len : (rest.dropWhile isWordChar).length ≤ f :=
            le_trans (List.dropWhile_sublist isWordChar).length_le hr
          have hr3tw := takeWhile_dropWhile_word rest
          have hRw : ∀ x ∈ c :: rest.takeWhile isWordChar,
              isWordChar x = true := by
            intro x hx
            rcases List.mem_cons.mp hx with rfl | hx
            · exact hc
            · exact List.mem_takeWhile_imp hx
          have hsplit : c :: rest = (c :: rest.takeWhile isWordChar)
              ++ rest.dropWhile isWordChar := by
            rw [List.cons_append, List.takeWhile_append_dropWhile]
          have hno3 : (k0 :: krest)
              ∉ wordRuns (rest.dropWhile isWordChar) := by
            intro hmem
            apply hno
            rw [hsplit, wordRuns_word_append (c :: rest.takeWhile isWordChar)
              (by simp) hRw _ (takeWhile_eq_nil_shape _ hr3tw)]
            exact List.mem_cons_of_mem _ hmem
          rw [hstep, hM, ih (rest.dropWhile isWordChar) prev' hr3len
            (Or.inr hr3tw) hno3, List.takeWhile_append_dropWhile]
      · have hcf : isWordChar c = false := by simpa using hc
        rw [replaceWordAux_step_nonword k0 krest out hk0 f prev c rest hcf]
        congr 1
        exact ih rest (some c) hr (Or.inl (by simp [prevWord, hcf]))
          (by rwa [wordRuns_cons_not_word c rest hcf] at hno)

theorem wordRuns_replaceWord (key out s : List Char)
    (hkw : ∀ c ∈ key, isWordChar c = true) (hkne : key ≠ [])
    (hone : out ≠ []) (how : ∀ c ∈ out, isWordChar c = true) :
    wordRuns (replaceWord key out s)
      = (wordRuns s).map (fun w => if w = key then out else w) := by
  cases key with
  | nil => exact absurd rfl hkne
  | cons k0 krest =>
    exact wordRuns_replaceWordAux k0 krest out
      (hkw k0 (List.mem_cons_self _ _))
      (fun c hc => hkw c (List.mem_cons_of_mem _ hc)) hone how
      s.length s none (le_refl _) (Or.inl rfl)

theorem replaceWord_no_occ (key out s : List Char)
    (hkw : ∀ c ∈ key, isWordChar c = true)
    (hno : key ∉ wordRuns s) : replaceWord key out s = s := by
  cases key with
  | nil => rfl
  | cons k0 krest =>
    exact replaceWordAux_no_occ k0 krest out
      (hkw k0 (List.mem_cons_self _ _))
      (fun c hc => hkw c (List.mem_cons_of_mem _ hc))
      s.length s none (le_refl _) (Or.inl rfl) hno

theorem subst_no_key (key out : List Char) (hne : out ≠ key)
    (rs : List (List Char)) :
    key ∉ rs.map (fun w => if w = key then out else w) := by
  intro h
  obtain ⟨w, hw, hEq⟩ := List.mem_map.mp h
  by_cases hwk : w = key
  · rw [if_pos hwk] at hEq
    exact hne hEq
  · rw [if_neg hwk] at hEq
    exact hwk hEq

theorem subst_pres_no_key (key out key2 : List Char) (h2 : out ≠ key2)
    (rs : List (List Char)) (hno : key2 ∉ rs) :
    key2 ∉ rs.map (fun w => if w = key then out else w) := by
  intro h
  obtain ⟨w, hw, hEq⟩ := List.mem_map.mp h
  by_cases hwk : w = key
  · rw [if_pos hwk] at hEq
    exact h2 hEq
  · rw [if_neg hwk] at hEq
    exact hno (hEq ▸ hw)

theorem foldl_pres_no_key (key : List Char) :
    ∀ (rs : List (List Char × List Char)) (x : List Char),
      (∀ kv ∈ rs, kv.1 ≠ [] ∧ (∀ c ∈ kv.1, isWordChar c = true) ∧ kv.2 ≠ []
        ∧ (∀ c ∈ kv.2, isWordChar c = true) ∧ kv.2 ≠ key) →
      key ∉ wordRuns x →
      key ∉ wordRuns (rs.foldl (fun t kv => replaceWord kv.1 kv.2 t) x) := by
  intro rs
  induction rs with
  | nil =>
    intro x _ hno
    exact hno
  | cons kv0 rest ih =>
    intro x hfacts hno
    simp only [List.foldl_cons]
    obtain ⟨h1, h2, h3, h4, h5⟩ := hfacts kv0 (List.mem_cons_self _ _)
    apply ih _ (fun kv hkv => hfacts kv (List.mem_cons_of_mem _ hkv))
    rw [wordRuns_replaceWord kv0.1 kv0.2 x h2 h1 h3 h4]
    exact subst_pres_no_key kv0.1 kv0.2 key h5 _ hno

theorem no_key_foldl_mid (pre post : List (List Char × List Char))
    (key out : List Char) (x : List Char)
    (hk : key ≠ []) (hkw : ∀ c ∈ key, isWordChar c = true)
    (ho : out ≠ []) (how : ∀ c ∈ out, isWordChar c = true) (hok : out ≠ key)
    (hpost : ∀ kv ∈ post, kv.1 ≠ [] ∧ (∀ c ∈ kv.1, isWordChar c = true)
      ∧ kv.2 ≠ [] ∧ (∀ c ∈ kv.2, isWordChar c = true) ∧ kv.2 ≠ key) :
    key ∉ wordRuns ((pre ++ (key, out) :: post).foldl
      (fun t kv => replaceWord kv.1 kv.2 t) x) := by
  rw [List.foldl_append]
  simp only [List.foldl_cons]
  apply foldl_pres_no_key key post _ hpost
  rw [wordRuns_replaceWord key out _ hkw hk ho how]
  exact subst_no_key key out hok _

theorem no_keys_applyReplacements (x : List Char) :
    ∀ kv ∈ replacements, kv.1 ∉ wordRuns (applyReplacements x) := by
  intro kv hkv
  simp only [replacements, List.mem_cons, List.not_mem_nil, or_false] at hkv
  rcases hkv with rfl | rfl | rfl | rfl | rfl
  · exact no_key_foldl_mid []
      [("kenapa".data, "mengapa".data), ("kapankah".data, "kapan".data),
       ("siapakah".data, "siapa".data), ("apakah".data, "apa".data)]
      "gimana".data "bagaimana".data x (by decide) (by decide) (by decide)
      (by decide) (by decide) (by decide)
  · exact no_key_foldl_mid [("gimana".data, "bagaimana".data)]
      [("kapankah".data, "kapan".data),
       ("siapakah".data, "siapa".data), ("apakah".data, "apa".data)]
      "kenapa".data "mengapa".data x (by decide) (by decide) (by decide)
      (by decide) (by decide) (by decide)
  · exact no_key_foldl_mid
      [("gimana".data, "bagaimana".data), ("kenapa".data, "mengapa".data)]
      [("siapakah".data, "siapa".data), ("apakah".data, "apa".data)]
      "kapankah".data "kapan".data x (by decide) (by decide) (by decide)
      (by decide) (by decide) (by decide)
  · exact no_key_foldl_mid
      [("gimana".data, "bagaimana".data), ("kenapa".data, "mengapa".data),
       ("kapankah".data, "kapan".data)]
      [("apakah".data, "apa".data)]
      "siapakah".data "siapa".data x (by decide) (by decide) (by decide)
      (by decide) (by decide) (by decide)
  · exact no_key_foldl_mid
      [("gimana".data, "bagaimana".data), ("kenapa".data, "mengapa".data),
       ("kapankah".data, "kapan".data), ("siapakah".data, "siapa".data)]
      []
      "apakah".data "apa".data x (by decide) (by decide) (by decide)
      (by decide) (by decide) (by decide)

theorem applyReplacements_fix (x : List Char)
    (hno : ∀ kv ∈ replacements, kv.1 ∉ wordRuns x) :
    applyReplacements x = x := by
  have h1 := replaceWord_no_occ "gimana".data "bagaimana".data x (by decide)
    (hno ("gimana".data, "bagaimana".data) (by decide))
  have h2 := replaceWord_no_occ "kenapa".data "mengapa".data x (by decide)
    (hno ("kenapa".data, "mengapa".data) (by decide))
  have h3 := replaceWord_no_occ "kapankah".data "kapan".data x (by decide)
    (hno ("kapankah".data, "kapan".data) (by decide))
  have h4 := replaceWord_no_occ "siapakah".data "siapa".data x (by decide)
    (hno ("siapakah".data, "siapa".data) (by decide))
  have h5 := replaceWord_no_occ "apakah".data "apa".data x (by decide)
    (hno ("apakah".data, "apa".data) (by decide))
  simp only [applyReplacements, replacements, List.foldl_cons, List.foldl_nil]
  rw [h1, h2, h3, h4, h5]

theorem no_keys_normalizeL (t : List Char) :
    ∀ kv ∈ replacements, kv.1 ∉ wordRuns (normalizeL t) := by
  intro kv hkv
  by_cases h : cleanTextL t = []
  · have : normalizeL t = [] := by simp [normalizeL, h]
    rw [this]
    simp [wordRuns]
  · have heq : wordRuns (normalizeL t)
        = wordRuns (applyReplacements ((cleanTextL t).map lowerChar)) := by
      have hn : normalizeL t = pyStrip (collapseWs (stripPunct
          (applyReplacements ((cleanTextL t).map lowerChar)))) := by
        simp [normalizeL, h]
      rw [hn, wordRuns_pyStrip, wordRuns_collapseWs, wordRuns_stripPunct]
    rw [heq]
    exact no_keys_applyReplacements _ kv hkv

theorem normalized_char_word_or_space (c : Char)
    (h : (isAsciiLower c || isAsciiDigit c || c = '_' || c = ' ') = true) :
    (isWordChar c || isPySpace c) = true := by
  simp only [Bool.or_eq_true, decide_eq_true_eq] at h
  rcases h with ((h | h) | h) | h
  · simp [isWordChar, h]
  · simp [isWordChar, h]
  · subst h
    decide
  · subst h
    decide

theorem normalized_char_printable (c : Char)
    (h : (isAsciiLower c || isAsciiDigit c || c = '_' || c = ' ') = true) :
    (isPyPrintable c || isPySpace c) = true := by
  simp only [Bool.or_eq_true, decide_eq_true_eq] at h
  rcases h with ((h | h) | h) | h
  · unfold isAsciiLower at h
    unfold isPyPrintable
    simp only [Bool.and_eq_true, decide_eq_true_eq] at h
    simp only [Bool.or_eq_true, Bool.and_eq_true, decide_eq_true_eq]
    omega
  · unfold isAsciiDigit at h
    unfold isPyPrintable
    simp only [Bool.and_eq_true, decide_eq_true_eq] at h
    simp only [Bool.or_eq_true, Bool.and_eq_true, decide_eq_true_eq]
    omega
  · subst h
    decide
  · subst h
    decide

theorem lowerChar_fix (c : Char)
    (h : (isAsciiLower c || isAsciiDigit c || c = '_' || c = ' ') = true) :
    lowerChar c = c := by
  have hu : isAsciiUpper c = false := by
    simp only [Bool.or_eq_true, decide_eq_true_eq] at h
    rcases h with ((h | h) | h) | h
    · unfold isAsciiLower at h
      unfold isAsciiUpper
      simp only [Bool.and_eq_true, decide_eq_true_eq] at h
      simp only [Bool.and_eq_false_iff, decide_eq_false_iff_not]
      omega
    · unfold isAsciiDigit at h
      unfold isAsciiUpper
      simp only [Bool.and_eq_true, decide_eq_true_eq] at h
      simp only [Bool.and_eq_false_iff, decide_eq_false_iff_not]
      omega
    · subst h
      decide
    · subst h
      decide
  unfold lowerChar
  rw [if_neg (by simp [hu])]

theorem map_lower_fix : ∀ l : List Char,
    (∀ c ∈ l, (isAsciiLower c || isAsciiDigit c || c = '_' || c = ' ')
      = true) → l.map lowerChar = l := by
  intro l
  induction l with
  | nil =>
    intro _
    rfl
  | cons c cs ih =>
    intro h
    rw [List.map_cons, lowerChar_fix c (h c (List.mem_cons_self c cs)),
      ih (fun d hd => h d (List.mem_cons_of_mem c hd))]

theorem stripPunct_fix : ∀ l : List Char,
    (∀ c ∈ l, (isWordChar c || isPySpace c) = true) → stripPunct l = l := by
  intro l
  induction l with
  | nil =>
    intro _
    rfl
  | cons c cs ih =>
    intro h
    have hcs := ih (fun d hd => h d (List.mem_cons_of_mem c hd))
    rw [stripPunct] at hcs ⊢
    rw [List.map_cons, if_pos (h c (List.mem_cons_self c cs)), hcs]

theorem goodRun_normalizeL (t : List Char) :
    goodRun (normalizeL t) = true := by
  by_cases h : cleanTextL t = []
  · have hn : normalizeL t = [] := by simp [normalizeL, h]
    rw [hn]
    rfl
  · have hn : normalizeL t = pyStrip (collapseWs (stripPunct
        (applyReplacements ((cleanTextL t).map lowerChar)))) := by
      simp [normalizeL, h]
    rw [hn]
    unfold pyStrip lstrip
    apply goodRun_rstrip
    apply goodRun_dropWhile_space
    unfold collapseWs
    exact goodRun_collapseAux _ _ (le_refl _) false

theorem pyStrip_normalizeL (t : List Char) :
    pyStrip (normalizeL t) = normalizeL t := by
  by_cases h : cleanTextL t = []
  · have hn : normalizeL t = [] := by simp [normalizeL, h]
    rw [hn]
    rfl
  · have hn : normalizeL t = pyStrip (collapseWs (stripPunct
        (applyReplacements ((cleanTextL t).map lowerChar)))) := by
      simp [normalizeL, h]
    rw [hn, pyStrip_idem]

theorem collapseWs_normalizeL (t : List Char) :
    collapseWs (normalizeL t) = normalizeL t := by
  unfold collapseWs
  exact collapseAux_fix (normalizeL t).length _ (le_refl _)
    (goodRun_normalizeL t)

theorem normalizeL_idem (t : List Char) :
    normalizeL (normalizeL t) = normalizeL t := by
  by_cases h0 : normalizeL t = []
  · rw [h0]
    rfl
  · have hch : ∀ c ∈ normalizeL t,
        (isAsciiLower c || isAsciiDigit c || c = '_' || c = ' ') = true :=
      fun c hc => normalize_chars_aux (String.mk t) c hc
    have hws : ∀ c ∈ normalizeL t, (isWordChar c || isPySpace c) = true :=
      fun c hc => normalized_char_word_or_space c (hch c hc)
    have hpr : ∀ c ∈ normalizeL t,
        (isPyPrintable c || isPySpace c) = true :=
      fun c hc => normalized_char_printable c (hch c hc)
    have hstrip := pyStrip_normalizeL t
    have hng : ¬(normalizeL t = [] ∨ pyStrip (normalizeL t) = []) := by
      push_neg
      exact ⟨h0, by rw [hstrip]; exact h0⟩
    have hclean : cleanTextL (normalizeL t) = normalizeL t := by
      rw [cleanTextL, if_neg hng, List.filter_eq_self.mpr hpr,
        collapseWs_normalizeL, hstrip]
    have houter : normalizeL (normalizeL t)
        = if cleanTextL (normalizeL t) = [] then []
          else pyStrip (collapseWs (stripPunct (applyReplacements
            ((cleanTextL (normalizeL t)).map lowerChar)))) := rfl
    rw [houter, hclean, if_neg h0, map_lower_fix _ hch,
      applyReplacements_fix _ (no_keys_normalizeL t), stripPunct_fix _ hws,
      collapseWs_normalizeL, hstrip]

/-- C8: `normalize_for_search` is idempotent: normalizing an already
normalized string returns it unchanged, because every character of a
normalized string is a lowercase letter, digit, underscore or single space
(so cleaning, lowercasing and punctuation stripping fix it), no contraction
key ever survives as a whole word of a normalized string (so the replacement
table fixes it), and its whitespace is already collapsed and stripped. -/
theorem claim_C8 (s : String) :
    normalize_for_search (normalize_for_search s) = normalize_for_search s :=
  congrArg String.mk (normalizeL_idem s.data)

end Bot
